import Mathlib

/-!
Verification of the parallel batch frame-extraction orchestrator
(`src/extractor.js`, `src/utils.js`, `src/downloader.js`, `src/gdrive.js`,
`src/index.js`).

Strings are modelled as `List Char` (a faithful sequence model of JS
strings).  External collaborators (the percent-decoder, the filesystem,
the extraction engine, the upload API) are modelled as explicit oracle
parameters; everything the repository's own code computes is translated
directly from the source.
-/

deriving instance DecidableEq for Except

/-! ## Name sanitizer (`src/utils.js`, `sanitizeFilename`, lines 378-402) -/

/-- Characters removed by `.replace(/[\[\]]/g, '')`. -/
def jsBracket (c : Char) : Bool := c == '[' || c == ']'

/-- Characters replaced by `_` in `.replace(/[<>:"/\\|?*]/g, '_')`. -/
def jsInvalidChar (c : Char) : Bool :=
  c == '<' || c == '>' || c == ':' || c == '"' || c == '/' ||
  c == '\\' || c == '|' || c == '?' || c == '*'

/-- Characters removed by `.replace(/[()]/g, '')`. -/
def jsParen (c : Char) : Bool := c == '(' || c == ')'

/-- Characters removed by the special-character class (ampersand, apostrophe,
backquote, tilde, bang, at, hash, dollar, percent, caret, plus, equals,
curly braces). -/
def jsSpecialChar (c : Char) : Bool :=
  c == '&' || c == Char.ofNat 39 || c == Char.ofNat 96 || c == '~' ||
  c == '!' || c == '@' || c == '#' || c == '$' || c == '%' ||
  c == '^' || c == '+' || c == '=' || c == Char.ofNat 123 || c == Char.ofNat 125

/-- The JS `\s` whitespace class (space, tab, LF, VT, FF, CR, NBSP and the
Unicode space separators). -/
def jsSpace (c : Char) : Bool :=
  c == ' ' || c == Char.ofNat 9 || c == Char.ofNat 10 || c == Char.ofNat 11 ||
  c == Char.ofNat 12 || c == Char.ofNat 13 || c == Char.ofNat 160 ||
  c == Char.ofNat 0x1680 || (0x2000 ≤ c.toNat && c.toNat ≤ 0x200a) ||
  c == Char.ofNat 0x2028 || c == Char.ofNat 0x2029 || c == Char.ofNat 0x202f ||
  c == Char.ofNat 0x205f || c == Char.ofNat 0x3000 || c == Char.ofNat 0xfeff

def isDot (c : Char) : Bool := c == '.'

def isDash (c : Char) : Bool := c == '-'

def isUnderscore (c : Char) : Bool := c == '_'

/-- Leading/trailing characters trimmed by `.replace(/^[-_]+|[-_]+$/g, '')`. -/
def isEdgeChar (c : Char) : Bool := c == '-' || c == '_'

/-- `.replace(/X/g, '')` for a character class `X`. -/
def removeChars (p : Char → Bool) (l : List Char) : List Char :=
  l.filter (fun c => !p c)

/-- `.replace(/X/g, r)` for a character class `X` and a one-character
replacement. -/
def mapChars (p : Char → Bool) (r : Char) (l : List Char) : List Char :=
  l.map (fun c => if p c then r else c)

/-- State machine for `.replace(/X+/g, r)`: every maximal run of `X`
characters becomes the single character `r`.  The boolean records whether the
previous character belonged to a run. -/
def collapseAux (p : Char → Bool) (r : Char) : List Char → Bool → List Char
  | [], _ => []
  | c :: rest, inRun =>
    if p c then
      (if inRun then collapseAux p r rest true else r :: collapseAux p r rest true)
    else c :: collapseAux p r rest false

/-- `.replace(/X+/g, r)`. -/
def collapseRuns (p : Char → Bool) (r : Char) (l : List Char) : List Char :=
  collapseAux p r l false

/-- `.replace(/_-|-_/g, '-')`: a left-to-right scan replacing each
occurrence of `_-` or `-_` by `-`, resuming after the replaced pair. -/
def dashUnderscoreFix : List Char → List Char
  | [] => []
  | [c] => [c]
  | c :: d :: rest =>
    if (c = '_' ∧ d = '-') ∨ (c = '-' ∧ d = '_') then
      '-' :: dashUnderscoreFix rest
    else c :: dashUnderscoreFix (d :: rest)

/-- Remove the maximal trailing run of `-`/`_` characters. -/
def dropTrailingEdges : List Char → List Char
  | [] => []
  | c :: rest =>
    match dropTrailingEdges rest with
    | [] => if isEdgeChar c then [] else [c]
    | d :: r => c :: d :: r

/-- `.replace(/^[-_]+|[-_]+$/g, '')`. -/
def trimEdges (l : List Char) : List Char :=
  dropTrailingEdges (l.dropWhile isEdgeChar)

/-- The replacement pipeline of `sanitizeFilename` after the optional
percent-decoding step, ending with `.substring(0, 100)`. -/
def sanitizeCore (l : List Char) : List Char :=
  List.take 100 (trimEdges (dashUnderscoreFix (collapseRuns isUnderscore '_'
    (collapseRuns isDash '-' (collapseRuns isDot '_' (collapseRuns jsSpace '_'
      (removeChars jsSpecialChar (removeChars jsParen
        (mapChars jsInvalidChar '_' (removeChars jsBracket l))))))))))

/-- `sanitizeFilename`: if the name contains a percent sign, attempt
percent-decoding first (keeping the original on failure), then run the
replacement pipeline.  `decode` is the external `decodeURIComponent`
collaborator; `none` models a decoding failure (a thrown `URIError`). -/
def sanitizeFilename (decode : List Char → Option (List Char)) (s : List Char) :
    List Char :=
  sanitizeCore (if '%' ∈ s then (decode s).getD s else s)

/-- Stages 1-4 of the pipeline (bracket removal, invalid-character
replacement, parenthesis removal, special-character removal); abbreviation
used to factor the proofs, definitionally equal to the corresponding prefix
of `sanitizeCore`. -/
def sanStage4 (l : List Char) : List Char :=
  removeChars jsSpecialChar (removeChars jsParen
    (mapChars jsInvalidChar '_' (removeChars jsBracket l)))

/-- Stages 1-6 (adds the whitespace and dot collapses). -/
def sanStage6 (l : List Char) : List Char :=
  collapseRuns isDot '_' (collapseRuns jsSpace '_' (sanStage4 l))

/-- Stages 1-8 (adds the dash and underscore run collapses). -/
def sanStage8 (l : List Char) : List Char :=
  collapseRuns isUnderscore '_' (collapseRuns isDash '-' (sanStage6 l))

/-- Stages 1-9 (adds the `_-`/`-_` normalization). -/
def sanStage9 (l : List Char) : List Char :=
  dashUnderscoreFix (sanStage8 l)

/-- Every character class eliminated by the pipeline (used to state which
characters can never survive sanitization). -/
def badChar (c : Char) : Bool :=
  jsBracket c || jsInvalidChar c || jsParen c || jsSpecialChar c ||
  jsSpace c || isDot c

/-- The thirteen characters that the spec requires to be absent from a
sanitized name. -/
def forbiddenTargetChars : List Char :=
  ['[', ']', '<', '>', ':', '"', '/', '\\', '|', '?', '*', '(', ')']

/-- Decidable check for two adjacent characters both satisfying `p`. -/
def noAdjRun (p : Char → Bool) : List Char → Bool
  | a :: b :: rest => (!(p a && p b)) && noAdjRun p (b :: rest)
  | _ => true

/-! ## Single-item processor (`src/extractor.js`, `processSingleVideo`) -/

/-- `path.join(a, b)` (normalization is irrelevant here: the result is only
used as an opaque directory name). -/
def pathJoin (a b : List Char) : List Char := a ++ '/' :: b

/-- `f.endsWith('.png')`. -/
def endsWithPng (f : List Char) : Bool :=
  List.isSuffixOf ['.', 'p', 'n', 'g'] f

/-- `countExtractedFrames`: list the directory and count the `.png` files;
a thrown `readdirSync` (modelled by `none`) yields 0. -/
def countExtractedFrames (listing : Option (List (List Char))) : Nat :=
  match listing with
  | none => 0
  | some fs => (fs.filter endsWithPng).length

/-- Outcome of one `existsSync`/`mkdirSync` attempt in the directory-creation
retry loop: the directory exists afterwards (`ok`), the call did not throw
but the directory still does not exist (`noop`), or the call threw (`err`). -/
inductive MkdirRes where
  | ok : MkdirRes
  | noop : MkdirRes
  | err (msg : List Char) : MkdirRes
deriving Repr, DecidableEq, Inhabited

/-- The error message thrown when all directory-creation attempts fail. -/
def failMsgPrefix : List Char :=
  ("Failed to create output directory after 3 attempts: ").toList

/-- `const maxRetries = 3`. -/
def maxRetries : Nat := 3

/-- The `for (let attempt = 1; attempt <= maxRetries; attempt++)` loop of
`processSingleVideo`.  Returns the loop's result (`error` models the `throw`
at the final attempt) together with the list of backoff delays slept
(`500 * attempt` after each non-final failed attempt).  `fuel` counts the
remaining loop iterations. -/
def mkdirGo (oracle : Nat → MkdirRes) (attempt : Nat) :
    Nat → Except (List Char) Unit × List Nat
  | 0 => (.ok (), [])
  | fuel + 1 =>
    match oracle attempt with
    | .ok => (.ok (), [])
    | .noop => mkdirGo oracle (attempt + 1) fuel
    | .err m =>
      if attempt = maxRetries then (.error (failMsgPrefix ++ m), [])
      else
        let rec' := mkdirGo oracle (attempt + 1) fuel
        (rec'.1, 500 * attempt :: rec'.2)

/-- The directory-creation retry loop, started at attempt 1 with 3
iterations. -/
def mkdirRetry (oracle : Nat → MkdirRes) : Except (List Char) Unit × List Nat :=
  mkdirGo oracle 1 maxRetries

/-- The result object built by `processSingleVideo` (fields absent from the
JS object are `none`). -/
structure ItemResult where
  success : Bool
  cached : Bool
  frameCount : Option Nat
  elapsedTime : Option (List Char)
  duration : Option Nat
  error : Option (List Char)
  outDir : List Char
deriving Repr, DecidableEq, Inhabited

/-- Ghost instrumentation recorded alongside each item: whether the
extraction engine was invoked, the staggered-start delay applied (in ms,
`none` when the stagger point was never reached), and the backoff delays
slept by the directory-creation loop. -/
structure ItemTrace where
  extracted : Bool
  delay : Option Nat
  mkdirSleeps : List Nat
deriving Repr, DecidableEq, Inhabited

/-- The `'0.00'` elapsed-time string returned for cached items. -/
def elapsedZero : List Char := ['0', '.', '0', '0']

/-- Environment of one work item: its name, the output root, the external
percent-decoder, and oracles for every filesystem / child-process
interaction `processSingleVideo` performs. -/
structure SVEnv where
  videoName : List Char
  outputRoot : List Char
  decode : List Char → Option (List Char)
  preListing : Option (List (List Char))
  mkdir : Nat → MkdirRes
  duration : Option Nat
  extractOk : Bool
  extractErr : List Char
  postListing : Option (List (List Char))
  elapsed : List Char

/-- `processSingleVideo(video, index, total, outputDir, options)`: cache
check, directory creation with retry (whose exhaustion throws — modelled by
`Except.error`), staggered start (`100 * index` ms), duration probe,
extraction, and result classification. -/
def processSingleVideo (env : SVEnv) (index : Nat) (force : Bool) :
    Except (List Char) (ItemResult × ItemTrace) :=
  let videoOutputDir := pathJoin env.outputRoot (sanitizeFilename env.decode env.videoName)
  if force = false ∧ 0 < countExtractedFrames env.preListing then
    .ok ({ success := true, cached := true,
           frameCount := some (countExtractedFrames env.preListing),
           elapsedTime := some elapsedZero, duration := none, error := none,
           outDir := videoOutputDir },
         { extracted := false, delay := none, mkdirSleeps := [] })
  else
    match mkdirRetry env.mkdir with
    | (.error m, _) => .error m
    | (.ok _, sleeps) =>
      let d := 100 * index
      if env.extractOk then
        .ok ({ success := true, cached := false,
               frameCount := some (countExtractedFrames env.postListing),
               elapsedTime := some env.elapsed, duration := env.duration,
               error := none, outDir := videoOutputDir },
             { extracted := true, delay := some d, mkdirSleeps := sleeps })
      else
        .ok ({ success := false, cached := false, frameCount := none,
               elapsedTime := none, duration := none,
               error := some env.extractErr, outDir := videoOutputDir },
             { extracted := true, delay := some d, mkdirSleeps := sleeps })

/-- Whether an item settles (returns an outcome object) rather than
throwing; this is independent of the item's index. -/
def itemOk (env : SVEnv) (force : Bool) : Bool :=
  (processSingleVideo env 0 force).isOk

/-! ## Batch scheduler (`src/extractor.js`, `processVideosParallel`) -/

/-- The running aggregate of `processVideosParallel` (`results`, `completed`,
`successCount`, `cachedCount`, `failCount`, `totalFrames`), plus the ghost
trace list. -/
structure BatchResult where
  results : List ItemResult
  traces : List ItemTrace
  completed : Nat
  successCount : Nat
  cachedCount : Nat
  failCount : Nat
  totalFrames : Nat
deriving Repr, DecidableEq, Inhabited

def initBatch : BatchResult :=
  { results := [], traces := [], completed := 0, successCount := 0,
    cachedCount := 0, failCount := 0, totalFrames := 0 }

/-- The per-result accumulation step of the `for (const result of
batchResults)` loop: push the result, bump `completed`, add `frameCount` to
`totalFrames` on success, and bump exactly one of the three counters. -/
def stepTotals (acc : BatchResult) (p : ItemResult × ItemTrace) : BatchResult :=
  let r := p.1
  let acc' := { acc with results := acc.results ++ [r],
                         traces := acc.traces ++ [p.2],
                         completed := acc.completed + 1 }
  if r.success then
    let acc'' := { acc' with totalFrames := acc'.totalFrames + r.frameCount.getD 0 }
    if r.cached then { acc'' with cachedCount := acc''.cachedCount + 1 }
    else { acc'' with successCount := acc''.successCount + 1 }
  else { acc' with failCount := acc'.failCount + 1 }

def foldTotals (acc : BatchResult) (ps : List (ItemResult × ItemTrace)) :
    BatchResult :=
  ps.foldl stepTotals acc

/-- `batch.map((video, batchIndex) => processSingleVideo(video,
i + batchIndex, ...))` followed by `Promise.all`: every item runs, the
results are collected in submission order, and the first rejection (in list
order, our deterministic stand-in for "first to settle") rejects the whole
batch. -/
def runItems (force : Bool) (offset : Nat) :
    List SVEnv → Except (List Char) (List (ItemResult × ItemTrace))
  | [] => .ok []
  | e :: rest =>
    match processSingleVideo e offset force, runItems force (offset + 1) rest with
    | .error m, _ => .error m
    | .ok _, .error m => .error m
    | .ok a, .ok as => .ok (a :: as)

/-- The `for (let i = 0; i < videos.length; i += concurrency)` loop of
`processVideosParallel`, with structural fuel (initialized to the list
length, which always suffices for `concurrency ≥ 1`; the callers resolve
concurrency through `Math.max(1, ...)`, and `concurrency = 0` would simply
never terminate in the source). -/
def pvpGo (force : Bool) (c : Nat) :
    Nat → List SVEnv → Nat → BatchResult → Except (List Char) BatchResult
  | _, [], _, acc => .ok acc
  | 0, _ :: _, _, acc => .ok acc
  | fuel + 1, e :: rest, offset, acc =>
    if c = 0 then .ok acc
    else
      match runItems force offset ((e :: rest).take c) with
      | .error m => .error m
      | .ok rs =>
        pvpGo force c fuel ((e :: rest).drop c) (offset + c) (foldTotals acc rs)

/-- `processVideosParallel(videos, outputDir, options, concurrency)`. -/
def processVideosParallel (envs : List SVEnv) (force : Bool) (c : Nat) :
    Except (List Char) BatchResult :=
  pvpGo force c envs.length envs 0 initBatch

/-- The outcome of item `i` when it settles (`default` is never used when
`itemOk` holds). -/
def itemD (e : SVEnv) (i : Nat) (force : Bool) : ItemResult × ItemTrace :=
  match processSingleVideo e i force with
  | .ok p => p
  | .error _ => default

/-- The sequential reference run: item `k` of the list is processed with
index `offset + k`. -/
def seqPairs (force : Bool) : List SVEnv → Nat → List (ItemResult × ItemTrace)
  | [], _ => []
  | e :: rest, i => itemD e i force :: seqPairs force rest (i + 1)

/-! ## Concurrency resolution (`src/extractor.js`, `processVideos` lines
314-330; identical in `processVideosFromList`) -/

/-- The user-requested concurrency: the literal string `'auto'`, or an
explicit value whose `parseInt(·, 10)` result is `parsed` (`none` models
`NaN` for a non-numeric value). -/
inductive ConcurrencyInput where
  | auto : ConcurrencyInput
  | explicit (parsed : Option Int) : ConcurrencyInput
deriving Repr, DecidableEq

/-- `defaultConcurrency = Math.max(1, Math.floor(cpuCount / 2))` followed by
the resolution
`userConcurrency === 'auto' ? Math.min(default, n) : Math.min(parseInt(u,10) || default, n)`
and the final `Math.max(1, ·)`.  JS `x || default` takes `default` when the
parsed value is `NaN` or `0` (both falsy). -/
def resolveConcurrency (cpuCount nVideos : Nat) (u : ConcurrencyInput) : Int :=
  let defaultConcurrency : Int := max 1 ((cpuCount / 2 : Nat) : Int)
  let c : Int :=
    match u with
    | .auto => min defaultConcurrency (nVideos : Int)
    | .explicit none => min defaultConcurrency (nVideos : Int)
    | .explicit (some r) =>
      min (if r = 0 then defaultConcurrency else r) (nVideos : Int)
  max 1 c

/-! ## Chunked iteration (`for (let i = 0; i < xs.length; i += size)` with
`xs.slice(i, Math.min(i + size, xs.length))`), shared by the batch
scheduler, the upload sub-batches and the download batches. -/

/-- Fuel-driven worker for `chunkList` (the fuel, initialized to the list
length, always suffices for `size ≥ 1`). -/
def chunkGo {α : Type} (size : Nat) : Nat → List α → List (List α)
  | _, [] => []
  | 0, _ :: _ => []
  | fuel + 1, x :: rest =>
    (x :: rest).take size :: chunkGo size fuel ((x :: rest).drop size)

def chunkList {α : Type} (size : Nat) (l : List α) : List (List α) :=
  if size = 0 then [] else chunkGo size l.length l

/-! ## Upload orchestrator (`src/gdrive.js`, `uploadVideoFrames` and
`uploadFilesBatch`) -/

/-- Lexicographic (UTF-16 code unit) comparison used by JS `Array.sort()`
on strings. -/
def strLe : List Char → List Char → Bool
  | [], _ => true
  | _ :: _, [] => false
  | c :: a, d :: b => if c < d then true else if d < c then false else strLe a b

def insertSorted (x : List Char) : List (List Char) → List (List Char)
  | [] => [x]
  | y :: rest => if strLe x y then x :: y :: rest else y :: insertSorted x rest

/-- `files.sort()`. -/
def sortStrs : List (List Char) → List (List Char)
  | [] => []
  | x :: rest => insertSorted x (sortStrs rest)

/-- Environment of one `uploadVideoFrames` call: the folder, its directory
listing, and oracles for the per-file upload result, the per-file
`unlinkSync` result, and the `rmdirSync` result. -/
structure UploadEnv where
  dir : List Char
  allFiles : List (List Char)
  uploadOk : List Char → Bool
  unlinkOk : List Char → Bool
  rmdirOk : Bool

/-- `fs.readdirSync(dir).filter(f => f.endsWith('.png')).map(f =>
path.join(dir, f)).sort()`. -/
def pngPaths (env : UploadEnv) : List (List Char) :=
  sortStrs ((env.allFiles.filter endsWithPng).map (pathJoin env.dir))

/-- The counting part of `uploadFilesBatch`: files are uploaded in chunks of
`concurrency`, each file's success/failure independent; returns
`(successCount, failCount)`. -/
def uploadFilesBatch (upOk : List Char → Bool) (files : List (List Char))
    (c : Nat) : Nat × Nat :=
  (chunkList c files).foldl
    (fun acc b =>
      b.foldl (fun acc f => if upOk f then (acc.1 + 1, acc.2) else (acc.1, acc.2 + 1)) acc)
    (0, 0)

/-- The observable state after one `uploadVideoFrames` call: the returned
counts plus (ghost) the local files still present and whether the local
directory was removed. -/
structure UploadResult where
  success : Bool
  uploaded : Nat
  failed : Nat
  deleted : Nat
  remainingFiles : List (List Char)
  dirRemoved : Bool
deriving Repr, DecidableEq, Inhabited

/-- `uploadVideoFrames(auth, videoOutputDir, parentFolderId, options)`:
list and sort the `.png` files, upload them in sub-batches, and — when
`deleteAfterUpload` is set and at least one upload succeeded — attempt
`unlinkSync` on every listed file (each failure swallowed), then remove the
directory if its listing is now empty (errors swallowed). -/
def uploadVideoFrames (env : UploadEnv) (deleteAfterUpload : Bool) (c : Nat) :
    UploadResult :=
  let files := pngPaths env
  let allPaths := env.allFiles.map (pathJoin env.dir)
  if files.length = 0 then
    { success := true, uploaded := 0, failed := 0, deleted := 0,
      remainingFiles := allPaths, dirRemoved := false }
  else
    let counts := uploadFilesBatch env.uploadOk files c
    if deleteAfterUpload ∧ 0 < counts.1 then
      let deletedCount := (files.filter env.unlinkOk).length
      let survivors :=
        allPaths.filter (fun p => !(decide (p ∈ files) && env.unlinkOk p))
      { success := counts.2 == 0, uploaded := counts.1, failed := counts.2,
        deleted := deletedCount, remainingFiles := survivors,
        dirRemoved := survivors.isEmpty && env.rmdirOk }
    else
      { success := counts.2 == 0, uploaded := counts.1, failed := counts.2,
        deleted := 0, remainingFiles := allPaths, dirRemoved := false }

/-! ## Download batching (`src/downloader.js`, `downloadAllVideos` lines
989-992, and its call site `src/index.js` lines 178-183) -/

/-- JS `Array.prototype.slice(start, end)`: a negative index counts from
the end (`max(len + idx, 0)`), a non-negative one is clamped to the length;
the result is the elements from the resolved start (inclusive) to the
resolved end (exclusive). -/
def jsSlice {α : Type} (l : List α) (s e : Int) : List α :=
  let len : Int := l.length
  let s2 : Int := if s < 0 then max (len + s) 0 else min s len
  let e2 : Int := if e < 0 then max (len + e) 0 else min e len
  (l.take e2.toNat).drop s2.toNat

/-- `const batchSize = Math.min(concurrency, 3)`.  The concurrency is a JS
number that may be negative (`parseInt` of a negative literal). -/
def downloadBatchSize (c : Int) : Int := min c 3

/-- The `for (let i = 0; i < urls.length; i += batchSize)` loop of
`downloadAllVideos`, collecting the batches
`urls.slice(i, Math.min(i + batchSize, urls.length))` it dispatches to
`Promise.all`.  For `batchSize ≤ 0` the source loop never terminates (`i`
never reaches `urls.length`); the structural fuel truncates that infinite
stream of dispatched batches, which is enough to observe any finite prefix
of it.  For `batchSize ≥ 1` a fuel of `urls.length` covers the whole run. -/
def downloadLoop (batchSize : Int) (urls : List (List Char)) :
    Nat → Int → List (List (List Char))
  | 0, _ => []
  | fuel + 1, i =>
    if i < (urls.length : Int) then
      jsSlice urls i (min (i + batchSize) (urls.length : Int)) ::
        downloadLoop batchSize urls fuel (i + batchSize)
    else []

/-- The download batches dispatched by `downloadAllVideos`. -/
def downloadBatches (c : Int) (urls : List (List Char)) :
    List (List (List Char)) :=
  downloadLoop (downloadBatchSize c) urls urls.length 0

/-- The concurrency `main` passes to `downloadAllVideos`:
`parseInt(concurrency, 10) || 4`.  `NaN` (`none`, e.g. `'auto'`) and `0`
are falsy and fall back to 4; every other parsed value — negative values
included — is truthy and passed through. -/
def mainDownloadConcurrency (parsed : Option Int) : Int :=
  match parsed with
  | none => 4
  | some k => if k = 0 then 4 else k

/-! ## Concrete instances used by counterexamples and witnesses -/

/-- An item whose output directory already holds two frames. -/
def cachedEnv : SVEnv :=
  { videoName := ['v', '1'], outputRoot := ['o', 'u', 't'],
    decode := fun s => some s,
    preListing := some [['a', '.', 'p', 'n', 'g'], ['b', '.', 'p', 'n', 'g'], ['x', '.', 't', 'x', 't']],
    mkdir := fun _ => .ok, duration := some 10, extractOk := true,
    extractErr := [], postListing := some [], elapsed := ['2'] }

/-- An item with an empty output directory that extracts successfully,
producing one frame. -/
def okEnv : SVEnv :=
  { videoName := ['v', '2'], outputRoot := ['o', 'u', 't'],
    decode := fun s => some s,
    preListing := some [], mkdir := fun _ => .ok, duration := some 10,
    extractOk := true, extractErr := [],
    postListing := some [['f', '.', 'p', 'n', 'g']], elapsed := ['3'] }

/-- An item whose extraction fails (nonzero ffmpeg exit). -/
def failEnv : SVEnv :=
  { videoName := ['v', '3'], outputRoot := ['o', 'u', 't'],
    decode := fun s => some s,
    preListing := some [], mkdir := fun _ => .ok, duration := none,
    extractOk := false, extractErr := ['b', 'o', 'o', 'm'],
    postListing := some [], elapsed := ['4'] }

/-- An item whose directory creation throws on every attempt. -/
def badMkdirEnv : SVEnv :=
  { videoName := ['v', '4'], outputRoot := ['o', 'u', 't'],
    decode := fun s => some s,
    preListing := some [], mkdir := fun _ => .err ['d', 'i', 's', 'k'],
    duration := some 10, extractOk := true, extractErr := [],
    postListing := some [], elapsed := ['5'] }

/-- An item whose directory creation throws twice, then succeeds. -/
def retryEnv : SVEnv :=
  { videoName := ['v', '5'], outputRoot := ['o', 'u', 't'],
    decode := fun s => some s,
    preListing := some [],
    mkdir := fun a => if a ≤ 2 then .err ['e'] else .ok,
    duration := some 10, extractOk := true, extractErr := [],
    postListing := some [['f', '.', 'p', 'n', 'g']], elapsed := ['6'] }

/-- The path of the third frame file in the upload counterexample. -/
def cexThirdFile : List Char := pathJoin ['d'] ['c', '.', 'p', 'n', 'g']

/-- An upload folder with three frames where the upload of `c.png` fails
and every local deletion succeeds. -/
def cexUploadEnv : UploadEnv :=
  { dir := ['d'],
    allFiles := [['a', '.', 'p', 'n', 'g'], ['b', '.', 'p', 'n', 'g'], ['c', '.', 'p', 'n', 'g']],
    uploadOk := fun p => !(p == cexThirdFile),
    unlinkOk := fun _ => true,
    rmdirOk := true }

/-- An upload folder with two frames where every upload and deletion
succeeds (used by the amended-claim witness). -/
def witUploadEnv : UploadEnv :=
  { dir := ['w'],
    allFiles := [['a', '.', 'p', 'n', 'g'], ['b', '.', 'p', 'n', 'g'], ['n', '.', 't', 'x', 't']],
    uploadOk := fun p => !(p == pathJoin ['w'] ['b', '.', 'p', 'n', 'g']),
    unlinkOk := fun _ => true,
    rmdirOk := true }

/-- The sample name on which `sanitizeFilename` fails to be idempotent. -/
def cexName : List Char := ['a', '_', '-', '_', 'b']

/-- The identity percent-decoder used to instantiate closed statements (the
inputs involved contain no percent sign, so the decoder is never consulted). -/
def idDecode : List Char → Option (List Char) := fun s => some s

/-- Additional sample URL list for download-batching statements. -/
def sampleUrls : List (List Char) :=
  [['u', '1'], ['u', '2'], ['u', '3'], ['u', '4']]

/-- A five-URL list on which a negative concurrency breaks the download
cap: `slice(0, -1)` dispatches the first four URLs at once. -/
def cexUrls : List (List Char) :=
  [['u', '1'], ['u', '2'], ['u', '3'], ['u', '4'], ['u', '5']]

/-! ## Helper lemmas -/

theorem chunkGo_nil {α : Type} (size fuel : Nat) :
    chunkGo (α := α) size fuel [] = [] := by
  cases fuel <;> rfl

theorem chunkGo_join {α : Type} (size : Nat) (hs : 1 ≤ size) :
    ∀ (fuel : Nat) (l : List α), l.length ≤ fuel →
      (chunkGo size fuel l).flatten = l := by
  intro fuel
  induction fuel with
  | zero =>
    intro l hl
    cases l with
    | nil => rfl
    | cons x rest => simp at hl
  | succ fuel ih =>
    intro l hl
    cases l with
    | nil => rfl
    | cons x rest =>
      simp only [chunkGo, List.flatten_cons]
      rw [ih ((x :: rest).drop size) (by simp only [List.length_drop, List.length_cons]; simp only [List.length_cons] at hl; omega)]
      exact List.take_append_drop size (x :: rest)

theorem chunkList_join {α : Type} (size : Nat) (hs : 1 ≤ size) (l : List α) :
    (chunkList size l).flatten = l := by
  unfold chunkList
  rw [if_neg (by omega)]
  exact chunkGo_join size hs l.length l le_rfl

theorem chunkGo_length_le {α : Type} (size : Nat) :
    ∀ (fuel : Nat) (l : List α) (b : List α), b ∈ chunkGo size fuel l →
      b.length ≤ size := by
  intro fuel
  induction fuel with
  | zero =>
    intro l b hb
    cases l with
    | nil => simp [chunkGo] at hb
    | cons x rest => simp [chunkGo] at hb
  | succ fuel ih =>
    intro l b hb
    cases l with
    | nil => simp [chunkGo] at hb
    | cons x rest =>
      simp only [chunkGo, List.mem_cons] at hb
      rcases hb with hb | hb
      · subst hb
        simp [List.length_take]
      · exact ih _ b hb

theorem chunkList_length_le {α : Type} (size : Nat) (l : List α) (b : List α)
    (hb : b ∈ chunkList size l) : b.length ≤ size := by
  unfold chunkList at hb
  by_cases h : size = 0
  · rw [if_pos h] at hb; simp at hb
  · rw [if_neg h] at hb
    exact chunkGo_length_le size l.length l b hb

theorem chunkGo_dropLast_length {α : Type} (size : Nat) :
    ∀ (fuel : Nat) (l : List α) (b : List α),
      b ∈ (chunkGo size fuel l).dropLast → b.length = size := by
  intro fuel
  induction fuel with
  | zero =>
    intro l b hb
    cases l with
    | nil => simp [chunkGo] at hb
    | cons x rest => simp [chunkGo] at hb
  | succ fuel ih =>
    intro l b hb
    cases l with
    | nil => simp [chunkGo] at hb
    | cons x rest =>
      simp only [chunkGo] at hb
      rcases hrec : chunkGo size fuel ((x :: rest).drop size) with _ | ⟨y, ys⟩
      · rw [hrec] at hb; simp at hb
      · rw [hrec] at hb
        simp only [List.dropLast, List.mem_cons] at hb
        rcases hb with hb | hb
        · subst hb
          have hne : (x :: rest).drop size ≠ [] := by
            intro hcon
            rw [hcon, chunkGo_nil] at hrec
            exact List.noConfusion hrec
          have hlen : size < (x :: rest).length := by
            by_contra hcon
            push_neg at hcon
            exact hne (List.drop_eq_nil_of_le hcon)
          simp only [List.length_take, List.length_cons] at *
          omega
        · exact ih ((x :: rest).drop size) b (by rw [hrec]; exact hb)

theorem chunkList_dropLast_length {α : Type} (size : Nat) (hs : 1 ≤ size)
    (l : List α) (b : List α) (hb : b ∈ (chunkList size l).dropLast) :
    b.length = size := by
  unfold chunkList at hb
  rw [if_neg (by omega)] at hb
  exact chunkGo_dropLast_length size l.length l b hb

/-! ## Claim C4 -/

/-- Claim C4 (corrected), counterexample: an explicit numeric request of
`0` is falsy in JS, so `parseInt(u,10) || defaultConcurrency` falls back to
the default: with 4 cores (default 2) and 8 items the code resolves `0` to
2, while the claimed formula `max(1, min(0, 8))` gives 1. -/
theorem C4_counterexample :
    resolveConcurrency 4 8 (.explicit (some 0)) = 2 ∧
    max 1 (min (0 : Int) 8) = 1 ∧ (2 : Int) ≠ 1 := by decide

/-- Claim C4 (amended): `'auto'` resolves to `max(1, floor(cpu/2))` capped
at the item count; an explicit nonzero numeric request `r` resolves to
`max(1, min(r, n))`; a non-numeric (`NaN`) or zero value falls back to the
auto resolution; 8 items on 4 cores resolve to 2. -/
theorem C4_concurrency_resolution (cpu n : Nat) (r : Int) (hn : 1 ≤ n)
    (hr : r ≠ 0) :
    resolveConcurrency cpu n .auto = min (max 1 ((cpu / 2 : Nat) : Int)) (n : Int) ∧
    resolveConcurrency cpu n (.explicit (some r)) = max 1 (min r (n : Int)) ∧
    resolveConcurrency cpu n (.explicit none) = resolveConcurrency cpu n .auto ∧
    resolveConcurrency cpu n (.explicit (some 0)) = resolveConcurrency cpu n .auto ∧
    resolveConcurrency 4 8 .auto = 2 := by
  refine ⟨?_, ?_, rfl, ?_, by decide⟩
  · simp only [resolveConcurrency]
    have h1 : (1 : Int) ≤ max 1 ((cpu / 2 : Nat) : Int) := le_max_left _ _
    have h2 : (1 : Int) ≤ (n : Int) := by exact_mod_cast hn
    omega
  · simp only [resolveConcurrency, if_neg hr]
  · simp [resolveConcurrency]

/-- Witness for C4 at cpu = 4, n = 8, r = 5. -/
theorem C4_witness :
    resolveConcurrency 4 8 .auto = min (max 1 ((4 / 2 : Nat) : Int)) (8 : Int) ∧
    resolveConcurrency 4 8 (.explicit (some 5)) = max 1 (min 5 (8 : Int)) ∧
    resolveConcurrency 4 8 (.explicit none) = resolveConcurrency 4 8 .auto ∧
    resolveConcurrency 4 8 (.explicit (some 0)) = resolveConcurrency 4 8 .auto ∧
    resolveConcurrency 4 8 .auto = 2 :=
  C4_concurrency_resolution 4 8 5 (by decide) (by decide)

/-! ## Claim C1 -/

/-- Claim C1 (confirmed): with `force` unset and `N ≥ 1` image files
already present in the item's output directory, `processSingleVideo`
returns a cached success with `frameCount = N` and elapsed time `'0.00'`,
without invoking the extraction engine (trace: `extracted = false`). -/
theorem C1_cache_short_circuit (env : SVEnv) (idx N : Nat) (hN : 1 ≤ N)
    (hcount : countExtractedFrames env.preListing = N) :
    processSingleVideo env idx false =
      .ok ({ success := true, cached := true, frameCount := some N,
             elapsedTime := some elapsedZero, duration := none, error := none,
             outDir := pathJoin env.outputRoot
               (sanitizeFilename env.decode env.videoName) },
           { extracted := false, delay := none, mkdirSleeps := [] }) := by
  simp only [processSingleVideo, hcount]
  rw [if_pos ⟨trivial, hN⟩]

/-- Witness for C1: a directory listing with two `.png` files (and one
non-image file) short-circuits with `frameCount = 2`. -/
theorem C1_witness :
    processSingleVideo cachedEnv 7 false =
      .ok ({ success := true, cached := true, frameCount := some 2,
             elapsedTime := some elapsedZero, duration := none, error := none,
             outDir := pathJoin cachedEnv.outputRoot
               (sanitizeFilename cachedEnv.decode cachedEnv.videoName) },
           { extracted := false, delay := none, mkdirSleeps := [] }) :=
  C1_cache_short_circuit cachedEnv 7 2 (by decide) (by decide)

/-! ## Claim C10 -/

theorem jsSlice_batch (urls : List (List Char)) (i : Nat) (bs : Int)
    (hbs : 1 ≤ bs) (hi : i < urls.length) :
    jsSlice urls (i : Int) (min ((i : Int) + bs) (urls.length : Int)) =
      (urls.drop i).take bs.toNat := by
  simp only [jsSlice]
  have hiL : ((i : Int)) < (urls.length : Int) := by exact_mod_cast hi
  have hbsn : ((bs.toNat : Int)) = bs := Int.toNat_of_nonneg (by omega)
  rw [if_neg (by omega : ¬ ((i : Int) < 0))]
  rw [if_neg (by omega :
    ¬ (min ((i : Int) + bs) (urls.length : Int) < 0))]
  have hs2 : (min ((i : Int)) ((urls.length : Int))).toNat = i := by omega
  have he2 : (min (min ((i : Int) + bs) ((urls.length : Int)))
      ((urls.length : Int))).toNat = min (i + bs.toNat) urls.length := by omega
  rw [hs2, he2]
  rw [List.drop_take]
  have harith : min (i + bs.toNat) urls.length - i =
      min bs.toNat (urls.length - i) := by omega
  rw [harith]
  by_cases hcase : bs.toNat ≤ urls.length - i
  · rw [min_eq_left hcase]
  · rw [min_eq_right (le_of_not_le hcase)]
    have hld : (urls.drop i).length = urls.length - i := List.length_drop i urls
    rw [List.take_of_length_le (le_of_eq hld),
      List.take_of_length_le (by omega)]

theorem downloadLoop_eq_chunkGo (bs : Int) (hbs : 1 ≤ bs)
    (urls : List (List Char)) :
    ∀ (fuel i : Nat),
      downloadLoop bs urls fuel (i : Int) =
        chunkGo bs.toNat fuel (urls.drop i) := by
  intro fuel
  induction fuel with
  | zero =>
    intro i
    cases urls.drop i <;> rfl
  | succ fuel ih =>
    intro i
    by_cases hi : i < urls.length
    · simp only [downloadLoop]
      rw [if_pos (by exact_mod_cast hi : (i : Int) < (urls.length : Int))]
      rw [jsSlice_batch urls i bs hbs hi]
      have hnext : (i : Int) + bs = ((i + bs.toNat : Nat) : Int) := by
        have hbsn : ((bs.toNat : Int)) = bs := Int.toNat_of_nonneg (by omega)
        push_cast
        omega
      rw [hnext, ih (i + bs.toNat)]
      rcases hdrop : urls.drop i with _ | ⟨x, rest⟩
      · exfalso
        have hlen0 : (urls.drop i).length = 0 := by rw [hdrop]; rfl
        rw [List.length_drop] at hlen0
        omega
      · simp only [chunkGo]
        rw [← hdrop, List.drop_drop]
    · simp only [downloadLoop]
      rw [if_neg (by exact_mod_cast hi : ¬ ((i : Int) < (urls.length : Int)))]
      rw [List.drop_eq_nil_of_le (by omega), chunkGo_nil]

/-- Claim C10 (corrected), counterexample: a negative explicit concurrency
is reachable — `parseInt('-1', 10) = -1` is truthy, so `parseInt(c,10) || 4`
passes it through — and then `batchSize = Math.min(-1, 3) = -1`, so the
first dispatched batch is `urls.slice(0, -1)`: on a 5-URL list the loop
hands 4 downloads to `Promise.all` at once, breaking the claimed cap of 3
(and the loop then never advances `i` to the end). -/
theorem C10_counterexample :
    mainDownloadConcurrency (some (-1)) = -1 ∧
    downloadBatchSize (-1) = -1 ∧
    (downloadBatches (-1) cexUrls).head? =
      some [['u', '1'], ['u', '2'], ['u', '3'], ['u', '4']] ∧
    ¬ ((4 : Nat) ≤ 3) := by decide

/-- Claim C10 (amended): for every positive concurrency `c ≥ 1` (which
includes everything `main` passes when the parsed value is non-negative:
`'auto'`, non-numeric and `0` fall back to 4), `downloadAllVideos`
partitions the URL list into sub-batches of size `min(c, 3)`: the dispatch
loop equals chunking with `min(c, 3)`, every batch has at most 3 URLs,
non-final batches exactly `min(c, 3)`, and the batches concatenate back to
the URL list.  A negative parsed concurrency is truthy past the `|| 4`
fallback and breaks the cap (see the counterexample). -/
theorem C10_download_cap (c : Int) (hc : 1 ≤ c) (urls : List (List Char)) :
    downloadBatches c urls = chunkList (downloadBatchSize c).toNat urls ∧
    (downloadBatches c urls).flatten = urls ∧
    (∀ b ∈ downloadBatches c urls, b.length ≤ 3) ∧
    (∀ b ∈ downloadBatches c urls, b.length ≤ (downloadBatchSize c).toNat) ∧
    (∀ b ∈ (downloadBatches c urls).dropLast,
        b.length = (downloadBatchSize c).toNat) ∧
    (∀ parsed : Option Int, (∀ k, parsed = some k → 0 ≤ k) →
        1 ≤ mainDownloadConcurrency parsed) := by
  have hbs : (1 : Int) ≤ downloadBatchSize c := by
    simp only [downloadBatchSize]
    omega
  have hbs2 : 1 ≤ (downloadBatchSize c).toNat := by omega
  have heq : downloadBatches c urls =
      chunkList (downloadBatchSize c).toNat urls := by
    unfold downloadBatches chunkList
    rw [if_neg (by omega : ¬ (downloadBatchSize c).toNat = 0)]
    have h0 := downloadLoop_eq_chunkGo (downloadBatchSize c) hbs urls
      urls.length 0
    simpa using h0
  refine ⟨heq, ?_, ?_, ?_, ?_, ?_⟩
  · rw [heq]
    exact chunkList_join _ hbs2 urls
  · rw [heq]
    intro b hb
    have hle := chunkList_length_le _ urls b hb
    have h3 : (downloadBatchSize c).toNat ≤ 3 := by
      simp only [downloadBatchSize] at *
      omega
    omega
  · rw [heq]
    intro b hb
    exact chunkList_length_le _ urls b hb
  · rw [heq]
    intro b hb
    exact chunkList_dropLast_length _ hbs2 urls b hb
  · intro parsed hparsed
    cases parsed with
    | none => simp [mainDownloadConcurrency]
    | some k =>
      have hk := hparsed k rfl
      simp only [mainDownloadConcurrency]
      by_cases hk0 : k = 0
      · rw [if_pos hk0]
        omega
      · rw [if_neg hk0]
        omega

/-- Witness for C10 (amended) at concurrency 8 and a 4-URL list. -/
theorem C10_witness :
    downloadBatches 8 sampleUrls =
      chunkList (downloadBatchSize 8).toNat sampleUrls ∧
    (downloadBatches 8 sampleUrls).flatten = sampleUrls ∧
    (∀ b ∈ downloadBatches 8 sampleUrls, b.length ≤ 3) ∧
    (∀ b ∈ downloadBatches 8 sampleUrls,
        b.length ≤ (downloadBatchSize 8).toNat) ∧
    (∀ b ∈ (downloadBatches 8 sampleUrls).dropLast,
        b.length = (downloadBatchSize 8).toNat) ∧
    (∀ parsed : Option Int, (∀ k, parsed = some k → 0 ≤ k) →
        1 ≤ mainDownloadConcurrency parsed) :=
  C10_download_cap 8 (by decide) sampleUrls

/-! ## Scheduler helper lemmas -/

theorem processSingleVideo_isOk (e : SVEnv) (i j : Nat) (force : Bool) :
    (processSingleVideo e i force).isOk = (processSingleVideo e j force).isOk := by
  simp only [processSingleVideo]
  by_cases hP : force = false ∧ 0 < countExtractedFrames e.preListing
  · rw [if_pos hP, if_pos hP]
  · rw [if_neg hP, if_neg hP]
    rcases mkdirRetry e.mkdir with ⟨res, sleeps⟩
    cases res with
    | error m => rfl
    | ok u =>
      cases hE : e.extractOk <;>
        simp [hE, Except.isOk, Except.toBool]

theorem runItems_ok (force : Bool) :
    ∀ (batch : List SVEnv) (offset : Nat),
      (∀ e ∈ batch, itemOk e force = true) →
      runItems force offset batch = .ok (seqPairs force batch offset) := by
  intro batch
  induction batch with
  | nil => intro offset _; rfl
  | cons e rest ih =>
    intro offset h
    have hok : (processSingleVideo e offset force).isOk = true := by
      rw [processSingleVideo_isOk e offset 0 force]
      exact h e (List.mem_cons_self e rest)
    rcases hmatch : processSingleVideo e offset force with m | p
    · rw [hmatch] at hok
      simp [Except.isOk, Except.toBool] at hok
    · have hd : itemD e offset force = p := by
        unfold itemD
        rw [hmatch]
      simp only [runItems, hmatch,
        ih (offset + 1) (fun x hx => h x (List.mem_cons_of_mem e hx)),
        seqPairs, hd]

theorem runItems_error (force : Bool) :
    ∀ (batch : List SVEnv) (offset : Nat),
      (∃ e ∈ batch, itemOk e force = false) →
      ∃ m, runItems force offset batch = .error m := by
  intro batch
  induction batch with
  | nil =>
    intro offset h
    rcases h with ⟨e, he, _⟩
    simp at he
  | cons e rest ih =>
    intro offset h
    rcases hmatch : processSingleVideo e offset force with m | p
    · exact ⟨m, by simp only [runItems, hmatch]⟩
    · have hgood : itemOk e force = true := by
        unfold itemOk
        rw [processSingleVideo_isOk e 0 offset force, hmatch]
        rfl
      rcases h with ⟨x, hx, hxbad⟩
      rcases List.mem_cons.mp hx with rfl | hx2
      · rw [hgood] at hxbad
        exact absurd hxbad (by simp)
      · rcases ih (offset + 1) ⟨x, hx2, hxbad⟩ with ⟨m, hm⟩
        exact ⟨m, by simp only [runItems, hmatch, hm]⟩

theorem stepTotals_fields (acc : BatchResult) (p : ItemResult × ItemTrace) :
    (stepTotals acc p).results = acc.results ++ [p.1] ∧
    (stepTotals acc p).traces = acc.traces ++ [p.2] ∧
    (stepTotals acc p).completed = acc.completed + 1 ∧
    (stepTotals acc p).successCount =
      acc.successCount + (if p.1.success && !p.1.cached then 1 else 0) ∧
    (stepTotals acc p).cachedCount =
      acc.cachedCount + (if p.1.success && p.1.cached then 1 else 0) ∧
    (stepTotals acc p).failCount =
      acc.failCount + (if !p.1.success then 1 else 0) ∧
    (stepTotals acc p).totalFrames =
      acc.totalFrames + (if p.1.success then p.1.frameCount.getD 0 else 0) := by
  by_cases h1 : p.1.success = true
  · by_cases h2 : p.1.cached = true
    · simp [stepTotals, h1, h2]
    · simp only [Bool.not_eq_true] at h2
      simp [stepTotals, h1, h2]
  · simp only [Bool.not_eq_true] at h1
    simp [stepTotals, h1]

theorem foldTotals_spec (ps : List (ItemResult × ItemTrace)) :
    ∀ acc : BatchResult,
      (foldTotals acc ps).results = acc.results ++ ps.map (fun p => p.1) ∧
      (foldTotals acc ps).traces = acc.traces ++ ps.map (fun p => p.2) ∧
      (foldTotals acc ps).completed = acc.completed + ps.length ∧
      (foldTotals acc ps).successCount =
        acc.successCount + ps.countP (fun p => p.1.success && !p.1.cached) ∧
      (foldTotals acc ps).cachedCount =
        acc.cachedCount + ps.countP (fun p => p.1.success && p.1.cached) ∧
      (foldTotals acc ps).failCount =
        acc.failCount + ps.countP (fun p => !p.1.success) := by
  induction ps with
  | nil => intro acc; simp [foldTotals]
  | cons p rest ih =>
    intro acc
    have hstep := stepTotals_fields acc p
    have hrest := ih (stepTotals acc p)
    simp only [foldTotals, List.foldl_cons] at *
    refine ⟨?_, ?_, ?_, ?_, ?_, ?_⟩
    · rw [hrest.1, hstep.1]
      simp
    · rw [hrest.2.1, hstep.2.1]
      simp
    · rw [hrest.2.2.1, hstep.2.2.1]
      simp [List.length_cons]
      omega
    · rw [hrest.2.2.2.1, hstep.2.2.2.1, List.countP_cons]
      by_cases hb : (p.1.success && !p.1.cached) = true
      · simp [hb]; omega
      · simp only [Bool.not_eq_true] at hb
        simp [hb]
    · rw [hrest.2.2.2.2.1, hstep.2.2.2.2.1, List.countP_cons]
      by_cases hb : (p.1.success && p.1.cached) = true
      · simp [hb]; omega
      · simp only [Bool.not_eq_true] at hb
        simp [hb]
    · rw [hrest.2.2.2.2.2, hstep.2.2.2.2.2.1, List.countP_cons]
      by_cases hb : (!p.1.success) = true
      · simp [hb]; omega
      · simp only [Bool.not_eq_true] at hb
        simp [hb]

/-! ## Claim C7 -/

/-- Claim C7 (confirmed): across the batch-scheduler accumulation, each of
the four running totals is monotonically non-decreasing at every step, each
processed outcome increments exactly one of the three counters, and after
any number of processed items `successCount + cachedCount + failCount`
equals the number of items processed so far (= the `completed` counter). -/
theorem C7_totals_invariant :
    (∀ (t : BatchResult) (p : ItemResult × ItemTrace),
        t.successCount ≤ (stepTotals t p).successCount ∧
        t.cachedCount ≤ (stepTotals t p).cachedCount ∧
        t.failCount ≤ (stepTotals t p).failCount ∧
        t.totalFrames ≤ (stepTotals t p).totalFrames) ∧
    (∀ (t : BatchResult) (p : ItemResult × ItemTrace),
        (stepTotals t p).successCount + (stepTotals t p).cachedCount +
            (stepTotals t p).failCount =
          t.successCount + t.cachedCount + t.failCount + 1) ∧
    (∀ (ps : List (ItemResult × ItemTrace)) (k : Nat),
        (foldTotals initBatch (ps.take k)).successCount +
            (foldTotals initBatch (ps.take k)).cachedCount +
            (foldTotals initBatch (ps.take k)).failCount = (ps.take k).length ∧
        (foldTotals initBatch (ps.take k)).completed = (ps.take k).length) := by
  refine ⟨?_, ?_, ?_⟩
  · intro t p
    have h := stepTotals_fields t p
    refine ⟨?_, ?_, ?_, ?_⟩
    · rw [h.2.2.2.1]; omega
    · rw [h.2.2.2.2.1]; omega
    · rw [h.2.2.2.2.2.1]; omega
    · rw [h.2.2.2.2.2.2]; omega
  · intro t p
    have h := stepTotals_fields t p
    rw [h.2.2.2.1, h.2.2.2.2.1, h.2.2.2.2.2.1]
    by_cases h1 : p.1.success = true
    · by_cases h2 : p.1.cached = true
      · simp [h1, h2]; omega
      · simp only [Bool.not_eq_true] at h2
        simp [h1, h2]; omega
    · simp only [Bool.not_eq_true] at h1
      simp [h1]; omega
  · intro ps k
    have h := foldTotals_spec (ps.take k) initBatch
    have hcount : (ps.take k).countP (fun p => p.1.success && !p.1.cached) +
        (ps.take k).countP (fun p => p.1.success && p.1.cached) +
        (ps.take k).countP (fun p => !p.1.success) = (ps.take k).length := by
      induction ps.take k with
      | nil => simp
      | cons q rest ihq =>
        simp only [List.countP_cons, List.length_cons]
        by_cases h1 : q.1.success = true
        · by_cases h2 : q.1.cached = true
          · simp [h1, h2]; omega
          · simp only [Bool.not_eq_true] at h2
            simp [h1, h2]; omega
        · simp only [Bool.not_eq_true] at h1
          simp [h1]; omega
    constructor
    · rw [h.2.2.2.1, h.2.2.2.2.1, h.2.2.2.2.2]
      simp only [initBatch]
      omega
    · rw [h.2.2.1]
      simp [initBatch]

theorem seqPairs_split (force : Bool) :
    ∀ (k : Nat) (l : List SVEnv) (off : Nat),
      seqPairs force l off =
        seqPairs force (l.take k) off ++ seqPairs force (l.drop k) (off + k) := by
  intro k
  induction k with
  | zero => intro l off; simp [seqPairs]
  | succ k ih =>
    intro l off
    cases l with
    | nil => simp [seqPairs]
    | cons e rest =>
      simp only [List.take_succ_cons, List.drop_succ_cons, seqPairs,
        List.cons_append]
      rw [ih rest (off + 1)]
      have : off + 1 + k = off + (k + 1) := by omega
      rw [this]

theorem seqPairs_length (force : Bool) :
    ∀ (l : List SVEnv) (off : Nat), (seqPairs force l off).length = l.length := by
  intro l
  induction l with
  | nil => intro off; rfl
  | cons e rest ih => intro off; simp [seqPairs, ih]

theorem seqPairs_get (force : Bool) :
    ∀ (l : List SVEnv) (off k : Nat),
      (seqPairs force l off).get? k =
        (l.get? k).map (fun e => itemD e (off + k) force) := by
  intro l
  induction l with
  | nil => intro off k; simp [seqPairs]
  | cons e rest ih =>
    intro off k
    cases k with
    | zero => simp [seqPairs]
    | succ k =>
      simp only [seqPairs, List.get?_cons_succ]
      rw [ih (off + 1) k]
      have : off + 1 + k = off + (k + 1) := by omega
      rw [this]

theorem pvpGo_ok (force : Bool) (c : Nat) (hc : 1 ≤ c) :
    ∀ (fuel : Nat) (envs : List SVEnv), envs.length ≤ fuel →
      (∀ e ∈ envs, itemOk e force = true) →
      ∀ (offset : Nat) (acc : BatchResult),
        pvpGo force c fuel envs offset acc =
          .ok (foldTotals acc (seqPairs force envs offset)) := by
  intro fuel
  induction fuel with
  | zero =>
    intro envs hlen hok offset acc
    cases envs with
    | nil => simp [pvpGo, seqPairs, foldTotals]
    | cons e rest => simp at hlen
  | succ fuel ih =>
    intro envs hlen hok offset acc
    cases envs with
    | nil => simp [pvpGo, seqPairs, foldTotals]
    | cons e rest =>
      simp only [pvpGo]
      rw [if_neg (by omega : ¬ c = 0)]
      rw [runItems_ok force ((e :: rest).take c) offset
        (fun x hx => hok x (List.take_subset c (e :: rest) hx))]
      show pvpGo force c fuel ((e :: rest).drop c) (offset + c)
          (foldTotals acc (seqPairs force ((e :: rest).take c) offset)) =
        Except.ok (foldTotals acc (seqPairs force (e :: rest) offset))
      rw [ih ((e :: rest).drop c)
        (by simp only [List.length_drop, List.length_cons]
            simp only [List.length_cons] at hlen
            omega)
        (fun x hx => hok x (List.drop_subset c (e :: rest) hx))
        (offset + c) (foldTotals acc (seqPairs force ((e :: rest).take c) offset))]
      rw [seqPairs_split force c (e :: rest) offset]
      rw [foldTotals, foldTotals, foldTotals, List.foldl_append]

theorem pvpGo_error (force : Bool) (c : Nat) (hc : 1 ≤ c) :
    ∀ (fuel : Nat) (envs : List SVEnv), envs.length ≤ fuel →
      (∃ e ∈ envs, itemOk e force = false) →
      ∀ (offset : Nat) (acc : BatchResult),
        ∃ m, pvpGo force c fuel envs offset acc = .error m := by
  intro fuel
  induction fuel with
  | zero =>
    intro envs hlen hbad offset acc
    cases envs with
    | nil =>
      rcases hbad with ⟨e, he, _⟩
      simp at he
    | cons e rest => simp at hlen
  | succ fuel ih =>
    intro envs hlen hbad offset acc
    cases envs with
    | nil =>
      rcases hbad with ⟨e, he, _⟩
      simp at he
    | cons e rest =>
      simp only [pvpGo]
      rw [if_neg (by omega : ¬ c = 0)]
      by_cases hbatch : ∃ x ∈ (e :: rest).take c, itemOk x force = false
      · rcases runItems_error force ((e :: rest).take c) offset hbatch with ⟨m, hm⟩
        rw [hm]
        exact ⟨m, rfl⟩
      · push_neg at hbatch
        have hokb : ∀ x ∈ (e :: rest).take c, itemOk x force = true := by
          intro x hx
          have hne := hbatch x hx
          cases h : itemOk x force
          · exact absurd h hne
          · rfl
        rw [runItems_ok force ((e :: rest).take c) offset hokb]
        apply ih
        · simp only [List.length_drop, List.length_cons]
          simp only [List.length_cons] at hlen
          omega
        · rcases hbad with ⟨x, hx, hxbad⟩
          refine ⟨x, ?_, hxbad⟩
          by_cases hxt : x ∈ (e :: rest).take c
          · exact absurd (hokb x hxt) (by simp [hxbad])
          · have hx2 : x ∈ (e :: rest).take c ++ (e :: rest).drop c := by
              rw [List.take_append_drop]
              exact hx
            rcases List.mem_append.mp hx2 with h2 | h2
            · exact absurd h2 hxt
            · exact h2

/-! ## Claim C2 -/

/-- Claim C2 (confirmed): as long as every item settles (an extraction
failure settles — only a directory-creation exhaustion throws, which is
claim C3's subject), the chunked parallel run completes and equals the
sequential reference run: every item's outcome is present, in order, and
`successCount` / `cachedCount` / `failCount` count exactly the items whose
own outcome is a non-cached success / a cached success / a failure.  A
failing item therefore never cancels or blocks any other item. -/
theorem C2_failure_isolation (envs : List SVEnv) (force : Bool) (c : Nat)
    (hc : 1 ≤ c) (hok : ∀ e ∈ envs, itemOk e force = true) :
    processVideosParallel envs force c =
      .ok (foldTotals initBatch (seqPairs force envs 0)) ∧
    (foldTotals initBatch (seqPairs force envs 0)).results =
      (seqPairs force envs 0).map (fun p => p.1) ∧
    (foldTotals initBatch (seqPairs force envs 0)).results.length = envs.length ∧
    (foldTotals initBatch (seqPairs force envs 0)).successCount =
      (seqPairs force envs 0).countP (fun p => p.1.success && !p.1.cached) ∧
    (foldTotals initBatch (seqPairs force envs 0)).cachedCount =
      (seqPairs force envs 0).countP (fun p => p.1.success && p.1.cached) ∧
    (foldTotals initBatch (seqPairs force envs 0)).failCount =
      (seqPairs force envs 0).countP (fun p => !p.1.success) := by
  have hf := foldTotals_spec (seqPairs force envs 0) initBatch
  refine ⟨?_, ?_, ?_, ?_, ?_, ?_⟩
  · exact pvpGo_ok force c hc envs.length envs le_rfl hok 0 initBatch
  · rw [hf.1]
    simp [initBatch]
  · rw [hf.1]
    simp [initBatch, seqPairs_length]
  · rw [hf.2.2.2.1]
    simp [initBatch]
  · rw [hf.2.2.2.2.1]
    simp [initBatch]
  · rw [hf.2.2.2.2.2]
    simp [initBatch]

/-- Witness for C2: the batch [A(succeeds), B(fails), C(succeeds)] with
concurrency 2 completes with `successCount = 2`, `failCount = 1` and all
three outcomes present. -/
theorem C2_witness :
    processVideosParallel [okEnv, failEnv, okEnv] false 2 =
      .ok (foldTotals initBatch (seqPairs false [okEnv, failEnv, okEnv] 0)) ∧
    (foldTotals initBatch (seqPairs false [okEnv, failEnv, okEnv] 0)).results.length = 3 ∧
    (foldTotals initBatch (seqPairs false [okEnv, failEnv, okEnv] 0)).successCount = 2 ∧
    (foldTotals initBatch (seqPairs false [okEnv, failEnv, okEnv] 0)).failCount = 1 ∧
    (foldTotals initBatch (seqPairs false [okEnv, failEnv, okEnv] 0)).results.map
        (fun r => r.success) = [true, false, true] :=
  ⟨(C2_failure_isolation [okEnv, failEnv, okEnv] false 2 (by decide)
      (by intro e he
          rcases List.mem_cons.mp he with rfl | he
          · decide
          rcases List.mem_cons.mp he with rfl | he
          · decide
          rcases List.mem_cons.mp he with rfl | he
          · decide
          simp at he)).1,
   by decide, by decide, by decide, by decide⟩

/-! ## Claim C3 -/

/-- Claim C3 (corrected), counterexample: an item whose directory creation
throws on all 3 attempts does not produce a per-item `Failure` outcome —
`processSingleVideo` throws (the promise rejects), and a batch containing
the item aborts with that error instead of completing with a failure
count. -/
theorem C3_counterexample :
    processSingleVideo badMkdirEnv 0 false =
      .error (failMsgPrefix ++ ['d', 'i', 's', 'k']) ∧
    processVideosParallel [badMkdirEnv] false 1 =
      .error (failMsgPrefix ++ ['d', 'i', 's', 'k']) := by decide

/-- Claim C3 (amended): directory creation is indeed attempted up to 3
times with linearly increasing backoff (sleeps `500·1, 500·2` after the
first two failed attempts), and an item whose third attempt succeeds
settles normally; but exhausting all 3 attempts makes `processSingleVideo`
throw `Failed to create output directory after 3 attempts: ...` past its
boundary, and any batch containing such an item aborts with an error
rather than completing and reporting a failure count.  (Extractor failures,
by contrast, are the per-item `Failure` outcomes of claim C2.) -/
theorem C3_mkdir_retry_throws (e1 e2 : SVEnv) (idx1 idx2 : Nat)
    (m1 m2 m3 n1 n2 : List Char)
    (h0 : countExtractedFrames e1.preListing = 0)
    (h1 : e1.mkdir 1 = .err m1) (h2 : e1.mkdir 2 = .err m2)
    (h3 : e1.mkdir 3 = .err m3)
    (g0 : countExtractedFrames e2.preListing = 0)
    (g1 : e2.mkdir 1 = .err n1) (g2 : e2.mkdir 2 = .err n2)
    (g3 : e2.mkdir 3 = .ok) :
    processSingleVideo e1 idx1 false = .error (failMsgPrefix ++ m3) ∧
    mkdirRetry e2.mkdir = (.ok (), [500 * 1, 500 * 2]) ∧
    (processSingleVideo e2 idx2 false).isOk = true ∧
    (∀ (envs : List SVEnv) (c : Nat), 1 ≤ c → e1 ∈ envs →
      ∃ m, processVideosParallel envs false c = .error m) := by
  have hretry1 : mkdirRetry e1.mkdir = (.error (failMsgPrefix ++ m3), [500 * 1, 500 * 2]) := by
    simp [mkdirRetry, mkdirGo, h1, h2, h3, maxRetries]
  have hretry2 : mkdirRetry e2.mkdir = (.ok (), [500 * 1, 500 * 2]) := by
    simp [mkdirRetry, mkdirGo, g1, g2, g3, maxRetries]
  have hps1 : processSingleVideo e1 idx1 false = .error (failMsgPrefix ++ m3) := by
    simp only [processSingleVideo, h0]
    rw [if_neg (by simp), hretry1]
  refine ⟨hps1, hretry2, ?_, ?_⟩
  · simp only [processSingleVideo, g0]
    rw [if_neg (by simp), hretry2]
    cases hE : e2.extractOk <;> simp [hE, Except.isOk, Except.toBool]
  · intro envs c hc hmem
    apply pvpGo_error false c hc envs.length envs le_rfl
    refine ⟨e1, hmem, ?_⟩
    unfold itemOk
    rw [processSingleVideo_isOk e1 0 idx1 false, hps1]
    rfl

/-- Witness for C3: the concrete always-failing and fails-twice items. -/
theorem C3_witness :
    processSingleVideo badMkdirEnv 3 false =
      .error (failMsgPrefix ++ ['d', 'i', 's', 'k']) ∧
    mkdirRetry retryEnv.mkdir = (.ok (), [500 * 1, 500 * 2]) ∧
    (processSingleVideo retryEnv 4 false).isOk = true ∧
    (∃ m, processVideosParallel [okEnv, badMkdirEnv] false 1 = .error m) := by
  have h := C3_mkdir_retry_throws badMkdirEnv retryEnv 3 4
    ['d', 'i', 's', 'k'] ['d', 'i', 's', 'k'] ['d', 'i', 's', 'k'] ['e'] ['e']
    (by decide) (by decide) (by decide) (by decide)
    (by decide) (by decide) (by decide) (by decide)
  exact ⟨h.1, h.2.1, h.2.2.1,
    h.2.2.2 [okEnv, badMkdirEnv] 1 (by decide)
      (List.mem_cons_of_mem okEnv (List.mem_cons_self badMkdirEnv []))⟩

/-! ## Claim C9 -/

/-- Claim C9 (corrected), counterexample: with 3 items and concurrency 2
the batches are `[[0,1],[2]]`; the third item is the first item of the
second batch, so the claimed within-batch stagger predicts a delay of
`100·0 = 0` ms, but the run applies `200` ms (100 × its global index). -/
theorem C9_counterexample :
    chunkList 2 (List.range 3) = [[0, 1], [2]] ∧
    (match processVideosParallel [okEnv, okEnv, okEnv] false 2 with
     | .ok r => r.traces.map (fun t => t.delay)
     | .error _ => []) = [some 0, some 100, some 200] ∧
    ¬ ((200 : Nat) = 100 * 0) := by decide

/-- Claim C9 (amended): the staggered-start delay is `100 ms` times the
item's global index in the full work list (the scheduler passes
`i + batchIndex`), not the index within its batch: whenever an item reaches
the extraction stage its recorded delay is `some (100 * index)`, the
scheduler hands item `k` of the list the index `k`, and a settling run's
trace list is exactly the per-item trace list. -/
theorem C9_stagger_global_index :
    (∀ (e : SVEnv) (i : Nat) (force : Bool),
        (itemD e i force).2.extracted = true →
        (itemD e i force).2.delay = some (100 * i)) ∧
    (∀ (force : Bool) (envs : List SVEnv) (off k : Nat),
        (seqPairs force envs off).get? k =
          (envs.get? k).map (fun e => itemD e (off + k) force)) ∧
    (∀ (envs : List SVEnv) (force : Bool) (c : Nat), 1 ≤ c →
        (∀ e ∈ envs, itemOk e force = true) →
        processVideosParallel envs force c =
          .ok (foldTotals initBatch (seqPairs force envs 0)) ∧
        (foldTotals initBatch (seqPairs force envs 0)).traces =
          (seqPairs force envs 0).map (fun p => p.2)) := by
  refine ⟨?_, seqPairs_get, ?_⟩
  · intro e i force
    simp only [itemD, processSingleVideo]
    by_cases hP : force = false ∧ 0 < countExtractedFrames e.preListing
    · rw [if_pos hP]
      intro h
      simp at h
    · rw [if_neg hP]
      rcases mkdirRetry e.mkdir with ⟨res, sleeps⟩
      cases res with
      | error m =>
        intro h
        simp [default] at h
      | ok u =>
        cases hE : e.extractOk <;> simp [hE]
  · intro envs force c hc hok
    have hf := foldTotals_spec (seqPairs force envs 0) initBatch
    refine ⟨pvpGo_ok force c hc envs.length envs le_rfl hok 0 initBatch, ?_⟩
    rw [hf.2.1]
    simp [initBatch]

/-- Witness for C9: item at global index 5 gets delay 500 ms; the third
item of a 3-item list is dispatched with index 2. -/
theorem C9_witness :
    (itemD okEnv 5 false).2.delay = some (100 * 5) ∧
    (seqPairs false [okEnv, okEnv, okEnv] 0).get? 2 =
      (([okEnv, okEnv, okEnv].get? 2).map (fun e => itemD e (0 + 2) false)) ∧
    processVideosParallel [okEnv] false 1 =
      .ok (foldTotals initBatch (seqPairs false [okEnv] 0)) :=
  ⟨C9_stagger_global_index.1 okEnv 5 false (by decide),
   C9_stagger_global_index.2.1 false [okEnv, okEnv, okEnv] 0 2,
   (C9_stagger_global_index.2.2 [okEnv] false 1 (by decide)
      (by intro e he
          rcases List.mem_cons.mp he with rfl | he
          · decide
          simp at he)).1⟩

/-! ## Claim C8 -/

theorem uploadFold_counts (upOk : List Char → Bool) :
    ∀ (b : List (List Char)) (acc : Nat × Nat),
      b.foldl (fun acc f =>
          if upOk f then (acc.1 + 1, acc.2) else (acc.1, acc.2 + 1)) acc =
        (acc.1 + b.countP upOk, acc.2 + b.countP (fun f => !upOk f)) := by
  intro b
  induction b with
  | nil => intro acc; simp
  | cons f rest ih =>
    intro acc
    simp only [List.foldl_cons, List.countP_cons]
    by_cases h : upOk f = true
    · rw [if_pos h, ih]
      simp [h]
      omega
    · rw [if_neg h, ih]
      simp only [Bool.not_eq_true] at h
      simp [h]
      omega

theorem uploadBatchGo_counts (upOk : List Char → Bool) :
    ∀ (bs : List (List (List Char))) (acc : Nat × Nat),
      bs.foldl (fun acc b =>
          b.foldl (fun acc f =>
            if upOk f then (acc.1 + 1, acc.2) else (acc.1, acc.2 + 1)) acc) acc =
        (acc.1 + bs.flatten.countP upOk,
         acc.2 + bs.flatten.countP (fun f => !upOk f)) := by
  intro bs
  induction bs with
  | nil => intro acc; simp
  | cons b rest ih =>
    intro acc
    simp only [List.foldl_cons, List.flatten_cons, List.countP_append]
    rw [uploadFold_counts upOk b acc, ih]
    simp
    omega

theorem uploadFilesBatch_counts (upOk : List Char → Bool)
    (files : List (List Char)) (c : Nat) (hc : 1 ≤ c) :
    uploadFilesBatch upOk files c =
      (files.countP upOk, files.countP (fun f => !upOk f)) := by
  unfold uploadFilesBatch
  rw [uploadBatchGo_counts upOk (chunkList c files) (0, 0),
    chunkList_join c hc files]
  simp

/-- Claim C8 (corrected), counterexample: with `deleteAfterUpload` set and
2 of 3 uploads succeeding (`c.png` fails), the code nevertheless attempts
deletion of all 3 local files — including the one whose upload failed —
and, the folder now being empty, removes it; the claim predicted only the
2 successful files deleted, `c.png` kept and the folder left in place. -/
theorem C8_counterexample :
    (uploadVideoFrames cexUploadEnv true 10).uploaded = 2 ∧
    (uploadVideoFrames cexUploadEnv true 10).failed = 1 ∧
    (uploadVideoFrames cexUploadEnv true 10).deleted = 3 ∧
    (uploadVideoFrames cexUploadEnv true 10).remainingFiles = [] ∧
    (uploadVideoFrames cexUploadEnv true 10).dirRemoved = true ∧
    ¬ ((uploadVideoFrames cexUploadEnv true 10).deleted = 2 ∧
       cexThirdFile ∈ (uploadVideoFrames cexUploadEnv true 10).remainingFiles ∧
       (uploadVideoFrames cexUploadEnv true 10).dirRemoved = false) := by decide

/-- Claim C8 (amended): when `deleteAfterUpload` is set and at least one
file uploaded successfully, deletion is attempted on every listed `.png`
file — not only the successfully uploaded ones — so exactly the files whose
`unlink` succeeds are removed (uploads' failures do not protect a file),
and the directory is removed iff its listing is empty afterwards and
`rmdir` succeeds. -/
theorem C8_delete_all_after_any_success (env : UploadEnv) (c : Nat)
    (hc : 1 ≤ c) (hsome : ∃ f ∈ pngPaths env, env.uploadOk f = true) :
    (uploadVideoFrames env true c).uploaded = (pngPaths env).countP env.uploadOk ∧
    (uploadVideoFrames env true c).failed =
      (pngPaths env).countP (fun f => !env.uploadOk f) ∧
    (uploadVideoFrames env true c).deleted =
      (pngPaths env).countP env.unlinkOk ∧
    (∀ f ∈ pngPaths env, env.unlinkOk f = true →
        f ∉ (uploadVideoFrames env true c).remainingFiles) ∧
    ((uploadVideoFrames env true c).dirRemoved = true ↔
        ((env.allFiles.map (pathJoin env.dir)).filter
            (fun p => !(decide (p ∈ pngPaths env) && env.unlinkOk p))).isEmpty
          = true ∧ env.rmdirOk = true) := by
  rcases hsome with ⟨f0, hf0, hup0⟩
  have hlen : ¬ (pngPaths env).length = 0 := by
    intro hcon
    rw [List.length_eq_zero] at hcon
    rw [hcon] at hf0
    simp at hf0
  have hcounts := uploadFilesBatch_counts env.uploadOk (pngPaths env) c hc
  have hpos : 0 < (uploadFilesBatch env.uploadOk (pngPaths env) c).1 := by
    rw [hcounts]
    exact List.countP_pos_iff.mpr ⟨f0, hf0, hup0⟩
  simp only [uploadVideoFrames]
  rw [if_neg hlen, if_pos ⟨trivial, hpos⟩]
  refine ⟨by rw [hcounts], by rw [hcounts], ?_, ?_, ?_⟩
  · rw [List.countP_eq_length_filter]
  · intro f hf hunl hmem
    rcases List.mem_filter.mp hmem with ⟨_, hpred⟩
    rw [Bool.not_eq_eq_eq_not] at hpred
    simp [hf, hunl] at hpred
  · simp

/-- Witness for C8: a folder with two frames (one upload failing), all
unlinks succeeding: both frames are deleted (the failed upload included),
and the folder survives only because of its non-image file. -/
theorem C8_witness :
    (uploadVideoFrames witUploadEnv true 10).deleted =
      (pngPaths witUploadEnv).countP witUploadEnv.unlinkOk ∧
    (uploadVideoFrames witUploadEnv true 10).uploaded = 1 ∧
    (uploadVideoFrames witUploadEnv true 10).failed = 1 ∧
    (uploadVideoFrames witUploadEnv true 10).deleted = 2 ∧
    (uploadVideoFrames witUploadEnv true 10).dirRemoved = false :=
  ⟨(C8_delete_all_after_any_success witUploadEnv 10 (by decide)
      ⟨pathJoin ['w'] ['a', '.', 'p', 'n', 'g'], by decide, by decide⟩).2.2.1,
   by decide, by decide, by decide, by decide⟩

/-! ## Sanitizer helper lemmas -/

theorem mem_removeChars (p : Char → Bool) (l : List Char) (c : Char)
    (hc : c ∈ removeChars p l) : c ∈ l ∧ p c = false := by
  rcases List.mem_filter.mp hc with ⟨h1, h2⟩
  exact ⟨h1, by simpa using h2⟩

theorem removeChars_not_mem (p : Char → Bool) (l : List Char) (c : Char)
    (hp : p c = true) : c ∉ removeChars p l := by
  intro hc
  rw [(mem_removeChars p l c hc).2] at hp
  exact Bool.noConfusion hp

theorem mem_mapChars (p : Char → Bool) (r : Char) (l : List Char) (c : Char)
    (hc : c ∈ mapChars p r l) : c = r ∨ (c ∈ l ∧ p c = false) := by
  rcases List.mem_map.mp hc with ⟨a, ha, hac⟩
  by_cases hp : p a = true
  · left
    rw [if_pos hp] at hac
    exact hac.symm
  · right
    simp only [Bool.not_eq_true] at hp
    rw [if_neg (by simp [hp])] at hac
    subst hac
    exact ⟨ha, hp⟩

theorem mem_collapseAux (p : Char → Bool) (r : Char) (c : Char) :
    ∀ (l : List Char) (b : Bool), c ∈ collapseAux p r l b →
      c = r ∨ (c ∈ l ∧ p c = false) := by
  intro l
  induction l with
  | nil => intro b hc; simp [collapseAux] at hc
  | cons a rest ih =>
    intro b hc
    simp only [collapseAux] at hc
    by_cases hp : p a = true
    · rw [if_pos hp] at hc
      by_cases hb : b = true
      · rw [if_pos hb] at hc
        rcases ih true hc with h | ⟨h1, h2⟩
        · exact Or.inl h
        · exact Or.inr ⟨List.mem_cons_of_mem a h1, h2⟩
      · rw [if_neg hb] at hc
        rcases List.mem_cons.mp hc with rfl | hc2
        · exact Or.inl rfl
        · rcases ih true hc2 with h | ⟨h1, h2⟩
          · exact Or.inl h
          · exact Or.inr ⟨List.mem_cons_of_mem a h1, h2⟩
    · rw [if_neg hp] at hc
      simp only [Bool.not_eq_true] at hp
      rcases List.mem_cons.mp hc with rfl | hc2
      · exact Or.inr ⟨List.mem_cons_self c rest, hp⟩
      · rcases ih false hc2 with h | ⟨h1, h2⟩
        · exact Or.inl h
        · exact Or.inr ⟨List.mem_cons_of_mem a h1, h2⟩

theorem collapseAux_length (p : Char → Bool) (r : Char) :
    ∀ (l : List Char) (b : Bool), (collapseAux p r l b).length ≤ l.length := by
  intro l
  induction l with
  | nil => intro b; simp [collapseAux]
  | cons a rest ih =>
    intro b
    simp only [collapseAux]
    by_cases hp : p a = true
    · rw [if_pos hp]
      by_cases hb : b = true
      · rw [if_pos hb]
        exact le_trans (ih true) (by simp)
      · rw [if_neg hb]
        simp only [List.length_cons]
        exact Nat.succ_le_succ (ih true)
    · rw [if_neg hp]
      simp only [List.length_cons]
      exact Nat.succ_le_succ (ih false)

theorem collapseAux_vacuous (p : Char → Bool) (r : Char) :
    ∀ (l : List Char), (∀ c ∈ l, p c = false) → ∀ b, collapseAux p r l b = l := by
  intro l
  induction l with
  | nil => intro _ b; rfl
  | cons a rest ih =>
    intro h b
    have ha : p a = false := h a (List.mem_cons_self a rest)
    simp only [collapseAux, ha]
    rw [if_neg (by simp)]
    rw [ih (fun c hc => h c (List.mem_cons_of_mem a hc)) false]

theorem noAdjRun_cons (p : Char → Bool) (a : Char) (l : List Char)
    (h1 : ∀ d rest, l = d :: rest → (p a && p d) = false)
    (h2 : noAdjRun p l = true) : noAdjRun p (a :: l) = true := by
  cases l with
  | nil => rfl
  | cons d rest =>
    simp only [noAdjRun, Bool.and_eq_true, Bool.not_eq_true']
    exact ⟨h1 d rest rfl, h2⟩

theorem noAdjRun_tail (p : Char → Bool) (a : Char) (l : List Char)
    (h : noAdjRun p (a :: l) = true) : noAdjRun p l = true := by
  cases l with
  | nil => rfl
  | cons d rest =>
    simp only [noAdjRun, Bool.and_eq_true] at h
    exact h.2

theorem noAdjRun_head_pair (p : Char → Bool) (a d : Char) (rest : List Char)
    (h : noAdjRun p (a :: d :: rest) = true) : (p a && p d) = false := by
  simp only [noAdjRun, Bool.and_eq_true, Bool.not_eq_true'] at h
  exact h.1

theorem noAdjRun_append_left (p : Char → Bool) :
    ∀ (l t : List Char), noAdjRun p (l ++ t) = true → noAdjRun p l = true := by
  intro l
  induction l with
  | nil => intro t _; rfl
  | cons a rest ih =>
    intro t h
    cases rest with
    | nil => rfl
    | cons d rest2 =>
      simp only [List.cons_append] at h
      refine noAdjRun_cons p a (d :: rest2) ?_ ?_
      · intro d' r' he
        cases he
        exact noAdjRun_head_pair p a d (rest2 ++ t) h
      · exact ih t (noAdjRun_tail p a ((d :: rest2) ++ t) h)

theorem noAdjRun_append_right (p : Char → Bool) :
    ∀ (t l : List Char), noAdjRun p (t ++ l) = true → noAdjRun p l = true := by
  intro t
  induction t with
  | nil => intro l h; exact h
  | cons a rest ih =>
    intro l h
    exact ih l (noAdjRun_tail p a (rest ++ l) h)

theorem collapseAux_head_not (p : Char → Bool) (r : Char) :
    ∀ (l : List Char) (c : Char) (rest : List Char),
      collapseAux p r l true = c :: rest → p c = false := by
  intro l
  induction l with
  | nil => intro c rest h; simp [collapseAux] at h
  | cons a as ih =>
    intro c rest h
    simp only [collapseAux] at h
    by_cases hp : p a = true
    · rw [if_pos hp, if_pos trivial] at h
      exact ih c rest h
    · rw [if_neg hp] at h
      simp only [Bool.not_eq_true] at hp
      rcases h with ⟨⟩
      exact hp

theorem collapseAux_noAdj (p : Char → Bool) (r : Char) :
    ∀ (l : List Char) (b : Bool), noAdjRun p (collapseAux p r l b) = true := by
  intro l
  induction l with
  | nil => intro b; rfl
  | cons a rest ih =>
    intro b
    simp only [collapseAux]
    by_cases hp : p a = true
    · rw [if_pos hp]
      by_cases hb : b = true
      · rw [if_pos hb]
        exact ih true
      · rw [if_neg hb]
        refine noAdjRun_cons p r (collapseAux p r rest true) ?_ (ih true)
        intro d r2 he
        have := collapseAux_head_not p r rest d r2 he
        simp [this]
    · rw [if_neg hp]
      simp only [Bool.not_eq_true] at hp
      refine noAdjRun_cons p a (collapseAux p r rest false) ?_ (ih false)
      intro d r2 _
      simp [hp]

theorem collapseAux_id_of_noAdj (p : Char → Bool) (r : Char)
    (hpr : ∀ c, p c = true → c = r) :
    ∀ (n : Nat) (l : List Char), l.length ≤ n → noAdjRun p l = true →
      collapseAux p r l false = l := by
  intro n
  induction n with
  | zero =>
    intro l hl _
    cases l with
    | nil => rfl
    | cons a rest => simp at hl
  | succ n ih =>
    intro l hl hadj
    cases l with
    | nil => rfl
    | cons a rest =>
      simp only [collapseAux]
      by_cases hp : p a = true
      · rw [if_pos hp, if_neg (by simp)]
        rw [hpr a hp]
        cases rest with
        | nil => rfl
        | cons d rest2 =>
          have hd : p d = false := by
            have := noAdjRun_head_pair p a d rest2 hadj
            rw [hp] at this
            simpa using this
          simp only [collapseAux, hd]
          rw [if_neg (by simp)]
          rw [ih rest2
            (by simp only [List.length_cons] at hl ⊢; omega)
            (noAdjRun_tail p d rest2 (noAdjRun_tail p a (d :: rest2) hadj))]
      · rw [if_neg hp]
        rw [ih rest (by simp only [List.length_cons] at hl; omega)
          (noAdjRun_tail p a rest hadj)]

theorem mem_duFix (c : Char) :
    ∀ (n : Nat) (l : List Char), l.length ≤ n → c ∈ dashUnderscoreFix l →
      c = '-' ∨ c ∈ l := by
  intro n
  induction n with
  | zero =>
    intro l hl hc
    cases l with
    | nil => simp [dashUnderscoreFix] at hc
    | cons a rest => simp at hl
  | succ n ih =>
    intro l hl hc
    match l with
    | [] => simp [dashUnderscoreFix] at hc
    | [a] =>
      simp only [dashUnderscoreFix] at hc
      exact Or.inr hc
    | a :: d :: rest =>
      simp only [dashUnderscoreFix] at hc
      by_cases hcond : (a = '_' ∧ d = '-') ∨ (a = '-' ∧ d = '_')
      · rw [if_pos hcond] at hc
        rcases List.mem_cons.mp hc with rfl | hc2
        · exact Or.inl rfl
        · rcases ih rest (by simp only [List.length_cons] at hl; omega) hc2 with h | h
          · exact Or.inl h
          · exact Or.inr (List.mem_cons_of_mem a (List.mem_cons_of_mem d h))
      · rw [if_neg hcond] at hc
        rcases List.mem_cons.mp hc with rfl | hc2
        · exact Or.inr (List.mem_cons_self c (d :: rest))
        · rcases ih (d :: rest) (by simp only [List.length_cons] at hl ⊢; omega) hc2 with h | h
          · exact Or.inl h
          · exact Or.inr (List.mem_cons_of_mem a h)

theorem duFix_id :
    ∀ (n : Nat) (l : List Char), l.length ≤ n → '-' ∉ l →
      dashUnderscoreFix l = l := by
  intro n
  induction n with
  | zero =>
    intro l hl hd
    cases l with
    | nil => rfl
    | cons a rest => simp at hl
  | succ n ih =>
    intro l hl hd
    match l with
    | [] => rfl
    | [a] => rfl
    | a :: d :: rest =>
      simp only [dashUnderscoreFix]
      rw [if_neg]
      · rw [ih (d :: rest) (by simp only [List.length_cons] at hl ⊢; omega)
          (fun h => hd (List.mem_cons_of_mem a h))]
      · rintro (⟨_, rfl⟩ | ⟨rfl, _⟩)
        · exact hd (List.mem_cons_of_mem a (List.mem_cons_self '-' rest))
        · exact hd (List.mem_cons_self '-' (d :: rest))

theorem duFix_length :
    ∀ (n : Nat) (l : List Char), l.length ≤ n →
      (dashUnderscoreFix l).length ≤ l.length := by
  intro n
  induction n with
  | zero =>
    intro l hl
    cases l with
    | nil => simp [dashUnderscoreFix]
    | cons a rest => simp at hl
  | succ n ih =>
    intro l hl
    match l with
    | [] => simp [dashUnderscoreFix]
    | [a] => simp [dashUnderscoreFix]
    | a :: d :: rest =>
      simp only [dashUnderscoreFix]
      by_cases hcond : (a = '_' ∧ d = '-') ∨ (a = '-' ∧ d = '_')
      · rw [if_pos hcond]
        simp only [List.length_cons]
        have := ih rest (by simp only [List.length_cons] at hl; omega)
        omega
      · rw [if_neg hcond]
        simp only [List.length_cons]
        have := ih (d :: rest) (by simp only [List.length_cons] at hl ⊢; omega)
        simp only [List.length_cons] at this
        omega

theorem dropWhile_decomp (p : Char → Bool) :
    ∀ (l : List Char), ∃ t, t ++ l.dropWhile p = l := by
  intro l
  induction l with
  | nil => exact ⟨[], rfl⟩
  | cons a rest ih =>
    by_cases hp : p a = true
    · rcases ih with ⟨t, ht⟩
      refine ⟨a :: t, ?_⟩
      rw [List.dropWhile_cons, if_pos hp]
      simp [ht]
    · refine ⟨[], ?_⟩
      rw [List.dropWhile_cons, if_neg hp]
      rfl

theorem mem_dropWhile (p : Char → Bool) (l : List Char) (c : Char)
    (hc : c ∈ l.dropWhile p) : c ∈ l := by
  rcases dropWhile_decomp p l with ⟨t, ht⟩
  rw [← ht]
  exact List.mem_append_right t hc

theorem length_dropWhile (p : Char → Bool) (l : List Char) :
    (l.dropWhile p).length ≤ l.length := by
  rcases dropWhile_decomp p l with ⟨t, ht⟩
  calc (l.dropWhile p).length ≤ t.length + (l.dropWhile p).length := by omega
  _ = l.length := by rw [← List.length_append, ht]

theorem dropWhile_head_not (p : Char → Bool) :
    ∀ (l : List Char) (c : Char) (rest : List Char),
      l.dropWhile p = c :: rest → p c = false := by
  intro l
  induction l with
  | nil => intro c rest h; simp [List.dropWhile] at h
  | cons a as ih =>
    intro c rest h
    rw [List.dropWhile_cons] at h
    by_cases hp : p a = true
    · rw [if_pos hp] at h
      exact ih c rest h
    · rw [if_neg hp] at h
      rcases h with ⟨⟩
      simpa using hp

theorem dropWhile_id (p : Char → Bool) (l : List Char)
    (h : ∀ c rest, l = c :: rest → p c = false) : l.dropWhile p = l := by
  cases l with
  | nil => rfl
  | cons a as =>
    rw [List.dropWhile_cons, if_neg (by simp [h a as rfl])]

theorem dropTrailingEdges_decomp :
    ∀ (l : List Char), ∃ t, dropTrailingEdges l ++ t = l := by
  intro l
  induction l with
  | nil => exact ⟨[], rfl⟩
  | cons a rest ih =>
    simp only [dropTrailingEdges]
    rcases hrec : dropTrailingEdges rest with _ | ⟨d, r⟩
    · by_cases he : isEdgeChar a = true
      · rw [if_pos he]
        exact ⟨a :: rest, rfl⟩
      · rw [if_neg he]
        exact ⟨rest, rfl⟩
    · rcases ih with ⟨t, ht⟩
      rw [hrec] at ht
      refine ⟨t, ?_⟩
      simp only [List.cons_append] at ht ⊢
      rw [ht]

theorem mem_dropTrailingEdges (l : List Char) (c : Char)
    (hc : c ∈ dropTrailingEdges l) : c ∈ l := by
  rcases dropTrailingEdges_decomp l with ⟨t, ht⟩
  rw [← ht]
  exact List.mem_append_left t hc

theorem length_dropTrailingEdges (l : List Char) :
    (dropTrailingEdges l).length ≤ l.length := by
  rcases dropTrailingEdges_decomp l with ⟨t, ht⟩
  calc (dropTrailingEdges l).length
      ≤ (dropTrailingEdges l).length + t.length := by omega
  _ = l.length := by rw [← List.length_append, ht]

theorem dropTrailingEdges_getLast :
    ∀ (l : List Char) (c : Char),
      (dropTrailingEdges l).getLast? = some c → isEdgeChar c = false := by
  intro l
  induction l with
  | nil => intro c h; simp [dropTrailingEdges] at h
  | cons a rest ih =>
    intro c h
    simp only [dropTrailingEdges] at h
    rcases hrec : dropTrailingEdges rest with _ | ⟨d, r⟩
    · rw [hrec] at h
      by_cases he : isEdgeChar a = true
      · rw [if_pos he] at h
        simp at h
      · rw [if_neg he] at h
        simp only [List.getLast?_singleton, Option.some.injEq] at h
        subst h
        simpa using he
    · rw [hrec] at h
      rw [List.getLast?_cons_cons] at h
      exact ih c (by rw [hrec]; exact h)

theorem dropTrailingEdges_id :
    ∀ (l : List Char),
      (∀ c, l.getLast? = some c → isEdgeChar c = false) →
      dropTrailingEdges l = l := by
  intro l
  induction l with
  | nil => intro _; rfl
  | cons a rest ih =>
    intro h
    simp only [dropTrailingEdges]
    cases rest with
    | nil =>
      simp only [dropTrailingEdges]
      rw [if_neg (by simp [h a (by simp)])]
    | cons d rest2 =>
      have hrest : dropTrailingEdges (d :: rest2) = d :: rest2 := by
        apply ih
        intro c hc
        exact h c (by rw [List.getLast?_cons_cons]; exact hc)
      rw [hrest]

theorem mem_collapseRuns (p : Char → Bool) (r : Char) (c : Char)
    (l : List Char) (hc : c ∈ collapseRuns p r l) :
    c = r ∨ (c ∈ l ∧ p c = false) :=
  mem_collapseAux p r c l false hc

theorem collapseRuns_vacuous (p : Char → Bool) (r : Char) (l : List Char)
    (h : ∀ c ∈ l, p c = false) : collapseRuns p r l = l :=
  collapseAux_vacuous p r l h false

theorem collapseRuns_noAdj (p : Char → Bool) (r : Char) (l : List Char) :
    noAdjRun p (collapseRuns p r l) = true :=
  collapseAux_noAdj p r l false

theorem collapseRuns_id_of_noAdj (p : Char → Bool) (r : Char)
    (hpr : ∀ c, p c = true → c = r) (l : List Char)
    (hadj : noAdjRun p l = true) : collapseRuns p r l = l :=
  collapseAux_id_of_noAdj p r hpr l.length l le_rfl hadj

theorem collapseRuns_length (p : Char → Bool) (r : Char) (l : List Char) :
    (collapseRuns p r l).length ≤ l.length :=
  collapseAux_length p r l false

theorem removeChars_id (p : Char → Bool) (l : List Char)
    (h : ∀ c ∈ l, p c = false) : removeChars p l = l := by
  unfold removeChars
  exact List.filter_eq_self.mpr (fun a ha => by simp [h a ha])

theorem mapChars_id (p : Char → Bool) (r : Char) :
    ∀ l : List Char, (∀ c ∈ l, p c = false) → mapChars p r l = l := by
  intro l
  induction l with
  | nil => intro _; rfl
  | cons a rest ih =>
    intro h
    simp only [mapChars, List.map_cons]
    rw [if_neg (by simp [h a (List.mem_cons_self a rest)])]
    have := ih (fun c hc => h c (List.mem_cons_of_mem a hc))
    simp only [mapChars] at this
    rw [this]

theorem sanStage4_flags (l : List Char) (c : Char) (hc : c ∈ sanStage4 l) :
    jsBracket c = false ∧ jsInvalidChar c = false ∧ jsParen c = false ∧
    jsSpecialChar c = false := by
  rcases mem_removeChars _ _ _ hc with ⟨hc3, hspec⟩
  rcases mem_removeChars _ _ _ hc3 with ⟨hc2, hpar⟩
  rcases mem_mapChars _ _ _ _ hc2 with rfl | ⟨hc1, hinv⟩
  · exact ⟨by decide, by decide, hpar, hspec⟩
  · rcases mem_removeChars _ _ _ hc1 with ⟨_, hbr⟩
    exact ⟨hbr, hinv, hpar, hspec⟩

theorem sanStage6_no_bad (l : List Char) (c : Char) (hc : c ∈ sanStage6 l) :
    badChar c = false := by
  rcases mem_collapseRuns _ _ _ _ hc with rfl | ⟨hc5, hdot⟩
  · decide
  rcases mem_collapseRuns _ _ _ _ hc5 with rfl | ⟨hc4, hsp⟩
  · decide
  rcases sanStage4_flags l c hc4 with ⟨hbr, hinv, hpar, hspec⟩
  simp [badChar, hbr, hinv, hpar, hspec, hsp, hdot]

theorem sanStage8_no_bad (l : List Char) (c : Char) (hc : c ∈ sanStage8 l) :
    badChar c = false := by
  rcases mem_collapseRuns _ _ _ _ hc with rfl | ⟨hc7, _⟩
  · decide
  rcases mem_collapseRuns _ _ _ _ hc7 with rfl | ⟨hc6, _⟩
  · decide
  exact sanStage6_no_bad l c hc6

theorem sanStage9_no_bad (l : List Char) (c : Char) (hc : c ∈ sanStage9 l) :
    badChar c = false := by
  rcases mem_duFix c (sanStage8 l).length (sanStage8 l) le_rfl hc with rfl | h
  · decide
  · exact sanStage8_no_bad l c h

theorem sanitizeCore_eq_stages (l : List Char) :
    sanitizeCore l = List.take 100 (trimEdges (sanStage9 l)) := rfl

theorem sanitizeCore_no_bad (l : List Char) (c : Char)
    (hc : c ∈ sanitizeCore l) : badChar c = false := by
  rw [sanitizeCore_eq_stages] at hc
  exact sanStage9_no_bad l c
    (mem_dropWhile isEdgeChar _ c
      (mem_dropTrailingEdges _ c (List.take_subset 100 _ hc)))

theorem sanitizeCore_length (l : List Char) : (sanitizeCore l).length ≤ 100 := by
  rw [sanitizeCore_eq_stages, List.length_take]
  exact min_le_left _ _

theorem badChar_parts (c : Char) (h : badChar c = false) :
    jsBracket c = false ∧ jsInvalidChar c = false ∧ jsParen c = false ∧
    jsSpecialChar c = false ∧ jsSpace c = false ∧ isDot c = false := by
  simp only [badChar, Bool.or_eq_false_iff] at h
  tauto

theorem removeChars_length (p : Char → Bool) (l : List Char) :
    (removeChars p l).length ≤ l.length :=
  List.length_filter_le _ _

theorem sanStage6_dashfree (l : List Char) (hdash : '-' ∉ l) :
    '-' ∉ sanStage6 l := by
  intro hc
  rcases mem_collapseRuns _ _ _ _ hc with h | ⟨hc5, _⟩
  · exact absurd h (by decide)
  rcases mem_collapseRuns _ _ _ _ hc5 with h | ⟨hc4, _⟩
  · exact absurd h (by decide)
  rcases mem_removeChars _ _ _ hc4 with ⟨hc3, _⟩
  rcases mem_removeChars _ _ _ hc3 with ⟨hc2, _⟩
  rcases mem_mapChars _ _ _ _ hc2 with h | ⟨hc1, _⟩
  · exact absurd h (by decide)
  rcases mem_removeChars _ _ _ hc1 with ⟨hmem, _⟩
  exact hdash hmem

theorem sanStage8_eq_dd (l : List Char) (hdash : '-' ∉ l) :
    sanStage8 l = collapseRuns isUnderscore '_' (sanStage6 l) := by
  unfold sanStage8
  rw [collapseRuns_vacuous isDash '-' (sanStage6 l) (fun c hc => by
    have hne : c ≠ '-' := fun hx => sanStage6_dashfree l hdash (hx ▸ hc)
    simpa [isDash] using hne)]

theorem sanStage8_dashfree (l : List Char) (hdash : '-' ∉ l) :
    '-' ∉ sanStage8 l := by
  intro hc
  rw [sanStage8_eq_dd l hdash] at hc
  rcases mem_collapseRuns _ _ _ _ hc with h | ⟨hc6, _⟩
  · exact absurd h (by decide)
  · exact sanStage6_dashfree l hdash hc6

theorem sanStage8_noAdj (l : List Char) :
    noAdjRun isUnderscore (sanStage8 l) = true := by
  unfold sanStage8
  exact collapseRuns_noAdj _ _ _

theorem sanStage9_eq (l : List Char) (hdash : '-' ∉ l) :
    sanStage9 l = sanStage8 l := by
  unfold sanStage9
  exact duFix_id (sanStage8 l).length (sanStage8 l) le_rfl
    (sanStage8_dashfree l hdash)

theorem sanStage9_length (l : List Char) : (sanStage9 l).length ≤ l.length := by
  have h9 := duFix_length (sanStage8 l).length (sanStage8 l) le_rfl
  have h8 : (sanStage8 l).length ≤ (sanStage6 l).length := by
    unfold sanStage8
    exact le_trans (collapseRuns_length _ _ _) (collapseRuns_length _ _ _)
  have h6 : (sanStage6 l).length ≤ (sanStage4 l).length := by
    unfold sanStage6
    exact le_trans (collapseRuns_length _ _ _) (collapseRuns_length _ _ _)
  have h4 : (sanStage4 l).length ≤ l.length := by
    unfold sanStage4
    refine le_trans (removeChars_length _ _) (le_trans (removeChars_length _ _) ?_)
    rw [mapChars, List.length_map]
    exact removeChars_length _ _
  unfold sanStage9 at *
  omega

theorem sanitizeCore_shape (l : List Char) (hdash : '-' ∉ l)
    (hlen : l.length ≤ 100) :
    '-' ∉ sanitizeCore l ∧
    noAdjRun isUnderscore (sanitizeCore l) = true ∧
    (∀ c rest, sanitizeCore l = c :: rest → isEdgeChar c = false) ∧
    (∀ c, (sanitizeCore l).getLast? = some c → isEdgeChar c = false) := by
  have hlen9 : (sanStage9 l).length ≤ 100 := le_trans (sanStage9_length l) hlen
  have hlenT : (trimEdges (sanStage9 l)).length ≤ 100 := by
    unfold trimEdges
    exact le_trans (length_dropTrailingEdges _)
      (le_trans (length_dropWhile _ _) hlen9)
  have heq : sanitizeCore l = trimEdges (sanStage9 l) := by
    rw [sanitizeCore_eq_stages]
    exact List.take_of_length_le hlenT
  have hadj9 : noAdjRun isUnderscore (sanStage9 l) = true := by
    rw [sanStage9_eq l hdash]
    exact sanStage8_noAdj l
  rcases dropWhile_decomp isEdgeChar (sanStage9 l) with ⟨t, ht⟩
  have hadjW : noAdjRun isUnderscore ((sanStage9 l).dropWhile isEdgeChar) = true := by
    apply noAdjRun_append_right isUnderscore t
    rw [ht]
    exact hadj9
  rcases dropTrailingEdges_decomp ((sanStage9 l).dropWhile isEdgeChar) with ⟨t2, ht2⟩
  have hadjT : noAdjRun isUnderscore (trimEdges (sanStage9 l)) = true := by
    apply noAdjRun_append_left isUnderscore _ t2
    unfold trimEdges
    rw [ht2]
    exact hadjW
  refine ⟨?_, ?_, ?_, ?_⟩
  · rw [heq]
    intro hc
    have h9 : '-' ∈ sanStage9 l :=
      mem_dropWhile isEdgeChar _ '-' (mem_dropTrailingEdges _ '-' hc)
    rw [sanStage9_eq l hdash] at h9
    exact sanStage8_dashfree l hdash h9
  · rw [heq]
    exact hadjT
  · rw [heq]
    intro c rest hcr
    unfold trimEdges at hcr
    rw [hcr] at ht2
    exact dropWhile_head_not isEdgeChar (sanStage9 l) c (rest ++ t2)
      (by rw [← ht2]; simp)
  · rw [heq]
    unfold trimEdges
    exact fun c hc => dropTrailingEdges_getLast _ c hc

theorem sanitizeCore_eq_self (l : List Char)
    (hbad : ∀ c ∈ l, badChar c = false)
    (hdash : '-' ∉ l)
    (hadj : noAdjRun isUnderscore l = true)
    (hhead : ∀ c rest, l = c :: rest → isEdgeChar c = false)
    (hlast : ∀ c, l.getLast? = some c → isEdgeChar c = false)
    (hlen : l.length ≤ 100) :
    sanitizeCore l = l := by
  have parts : ∀ c ∈ l, jsBracket c = false ∧ jsInvalidChar c = false ∧
      jsParen c = false ∧ jsSpecialChar c = false ∧ jsSpace c = false ∧
      isDot c = false := fun c hc => badChar_parts c (hbad c hc)
  have h1 : removeChars jsBracket l = l :=
    removeChars_id _ _ (fun c hc => (parts c hc).1)
  have h2 : mapChars jsInvalidChar '_' l = l :=
    mapChars_id _ _ l (fun c hc => (parts c hc).2.1)
  have h3 : removeChars jsParen l = l :=
    removeChars_id _ _ (fun c hc => (parts c hc).2.2.1)
  have h4 : removeChars jsSpecialChar l = l :=
    removeChars_id _ _ (fun c hc => (parts c hc).2.2.2.1)
  have h5 : collapseRuns jsSpace '_' l = l :=
    collapseRuns_vacuous _ _ _ (fun c hc => (parts c hc).2.2.2.2.1)
  have h6 : collapseRuns isDot '_' l = l :=
    collapseRuns_vacuous _ _ _ (fun c hc => (parts c hc).2.2.2.2.2)
  have h7 : collapseRuns isDash '-' l = l :=
    collapseRuns_vacuous _ _ _ (fun c hc => by
      have hne : c ≠ '-' := fun hx => hdash (hx ▸ hc)
      simpa [isDash] using hne)
  have h8 : collapseRuns isUnderscore '_' l = l :=
    collapseRuns_id_of_noAdj _ _ (fun c hc => by
      simp only [isUnderscore, beq_iff_eq] at hc
      exact hc) l hadj
  have h9 : dashUnderscoreFix l = l := duFix_id l.length l le_rfl hdash
  have h10 : l.dropWhile isEdgeChar = l := dropWhile_id _ _ hhead
  have h11 : dropTrailingEdges l = l := dropTrailingEdges_id l hlast
  have h12 : List.take 100 l = l := List.take_of_length_le hlen
  unfold sanitizeCore trimEdges
  rw [h1, h2, h3, h4, h5, h6, h7, h8, h9, h10, h11, h12]

/-! ## Claim C6 -/

/-- Claim C6 (confirmed): for every input and every behaviour of the
external percent-decoder, the sanitized name has length at most 100 and
contains none of the characters
`[ ] < > : " / \ | ? * ( )`. -/
theorem C6_sanitized_name_safe (decode : List Char → Option (List Char))
    (n : List Char) :
    (sanitizeFilename decode n).length ≤ 100 ∧
    (sanitizeFilename decode n).all
      (fun c => !(forbiddenTargetChars.contains c)) = true := by
  constructor
  · unfold sanitizeFilename
    exact sanitizeCore_length _
  · rw [List.all_eq_true]
    intro c hcmem
    have hbad : badChar c = false := sanitizeCore_no_bad _ c hcmem
    show (!(forbiddenTargetChars.contains c)) = true
    rw [Bool.not_eq_true']
    by_contra hcon
    rw [Bool.not_eq_false] at hcon
    have hmem : c ∈ forbiddenTargetChars := List.elem_iff.mp hcon
    have : badChar c = true := by
      have hall : ∀ x ∈ forbiddenTargetChars, badChar x = true := by decide
      exact hall c hmem
    rw [this] at hbad
    exact Bool.noConfusion hbad

/-! ## Claim C5 -/

/-- Claim C5 (corrected), counterexample: `sanitizeFilename` is not
idempotent.  On `a_-_b` the left-to-right `_-|-_` replacement consumes the
first pair and leaves `a-_b`, which still contains `-_`; a second pass
collapses it further to `a-b`. -/
theorem C5_counterexample :
    sanitizeFilename idDecode (sanitizeFilename idDecode cexName) ≠
      sanitizeFilename idDecode cexName := by decide

/-- Claim C5 (amended): `sanitizeFilename` is idempotent on every input of
length at most 100 that contains no percent sign (so the external decoder
is never consulted) and no dash (the `_-`/`-_` normalization and the dash
collapse are the stages whose output can need a second pass). -/
theorem C5_sanitize_idempotent_restricted
    (decode : List Char → Option (List Char)) (x : List Char)
    (hlen : x.length ≤ 100) (hpct : '%' ∉ x) (hdash : '-' ∉ x) :
    sanitizeFilename decode (sanitizeFilename decode x) =
      sanitizeFilename decode x := by
  have hx : sanitizeFilename decode x = sanitizeCore x := by
    unfold sanitizeFilename
    rw [if_neg hpct]
  rw [hx]
  have hnb : ∀ c ∈ sanitizeCore x, badChar c = false :=
    fun c hc => sanitizeCore_no_bad x c hc
  have hpct2 : '%' ∉ sanitizeCore x := by
    intro hc
    exact absurd (hnb '%' hc) (by decide)
  have hshape := sanitizeCore_shape x hdash hlen
  have hlen2 : (sanitizeCore x).length ≤ 100 := sanitizeCore_length x
  have hwrap : sanitizeFilename decode (sanitizeCore x) =
      sanitizeCore (sanitizeCore x) := by
    unfold sanitizeFilename
    rw [if_neg hpct2]
  rw [hwrap]
  exact sanitizeCore_eq_self (sanitizeCore x) hnb hshape.1 hshape.2.1
    hshape.2.2.1 hshape.2.2.2 hlen2

/-- Witness for C5 (amended) at the name `hi b`. -/
theorem C5_witness :
    sanitizeFilename idDecode
        (sanitizeFilename idDecode ['h', 'i', ' ', 'b']) =
      sanitizeFilename idDecode ['h', 'i', ' ', 'b'] :=
  C5_sanitize_idempotent_restricted idDecode ['h', 'i', ' ', 'b']
    (by decide) (by decide) (by decide)
